import Mathlib

/-!
# Verification of the keyword matching engine (`keyword_processor.py`)

A shallow embedding of the core of `WebKeywordMatcher` from
`src/keyword_processor.py`, together with proofs settling the frozen claims
about it.

Modelling conventions:
* Python strings are modelled as `List Char` (`Str` below).
* Python's Unicode predicates (`\w`, `\s`, `str.lower`, `str.isdigit`) are
  modelled on the Latin + CJK subset the system is specified for: `\w` is
  ASCII alphanumerics, underscore, and the CJK ideograph block U+4E00–U+9FFF
  (the block the source regex names explicitly); `\s` is ASCII whitespace
  plus the ideographic space U+3000; `str.lower` lowercases ASCII `A`–`Z`
  and full-width `Ａ`–`Ｚ`; `str.isdigit` accepts ASCII `0`–`9`.
* Python `set` objects of token positions are modelled as `Finset ℕ`;
  the stop-word set is modelled as a `List Str` used by membership only.
* Python `dict`s keyed by strings are modelled as association lists.
* `list.sort(key=…, reverse=True)` (a stable descending sort) is modelled by
  a stable descending insertion sort; sortedness plus stability determine the
  result uniquely, so this is extensionally the CPython sort.
* The floating-point arithmetic in the progress computation
  (`int((idx + 1) / total_rows * 100)`) is modelled exactly: binary
  floating point with a 53-bit significand and unbounded exponent, with
  round-to-nearest, ties-to-even division and multiplication (this agrees
  with IEEE-754 binary64 for all magnitudes that occur here).
-/

set_option maxRecDepth 10000

abbrev Str := List Char

/-! ## Character-level primitives -/
/-- Model of `\s` on the modelled subset: ASCII whitespace plus the ideographic space
U+3000 (which Python's `str.split`, `str.strip` and `\s` all treat as
whitespace). -/
def isSpaceChar (c : Char) : Bool :=
  c.toNat = 32 || c.toNat = 9 || c.toNat = 10 || c.toNat = 13 ||
  c.toNat = 11 || c.toNat = 12 || c.toNat = 12288

/-- Model of `\w` joined with the explicit CJK range `一-鿿` of the source
regex, on the modelled subset: ASCII alphanumerics, underscore, CJK
ideographs. -/
def isWordChar (c : Char) : Bool :=
  (97 ≤ c.toNat && c.toNat ≤ 122) || (65 ≤ c.toNat && c.toNat ≤ 90) ||
  (48 ≤ c.toNat && c.toNat ≤ 57) || c.toNat = 95 ||
  (19968 ≤ c.toNat && c.toNat ≤ 40959)

/-- Model of `str.lower` on the modelled subset: ASCII `A`–`Z` and the full-width
letters `Ａ`–`Ｚ` (U+FF21–U+FF3A) move down by 32 to their lowercase forms. -/
def toLowerChar (c : Char) : Char :=
  if (65 ≤ c.toNat && c.toNat ≤ 90) || (65313 ≤ c.toNat && c.toNat ≤ 65338) then
    Char.ofNat (c.toNat + 32)
  else c

def toLowerS (s : Str) : Str := s.map toLowerChar

/-- One character of `strQ2B`: the ideographic space U+3000 (code 12288)
becomes an ASCII space, codepoints 65281–65374 (the full-width ASCII block)
move down by 65248, everything else is unchanged. -/
def foldChar (c : Char) : Char :=
  if c.toNat = 12288 then ' '
  else if 65281 ≤ c.toNat && c.toNat ≤ 65374 then Char.ofNat (c.toNat - 65248)
  else c

/-- The function `strQ2B` (full-width to half-width folding), lines 28–38 of the source. -/
def strQ2B (s : Str) : Str := s.map foldChar

/-! ## Python string operations -/
/-- Model of `str.strip()`: drop whitespace from both ends. -/
def pyStrip (s : Str) : Str :=
  ((s.dropWhile isSpaceChar).reverse.dropWhile isSpaceChar).reverse

/-- Model of `str.split()` with no separator: split on runs of whitespace, discarding
empty pieces (leading/trailing whitespace produces nothing). -/
def wsplit (s : Str) : List Str :=
  (s.splitOnP isSpaceChar).filter (fun w => w ≠ [])

/-- Model of `' '.join(ws)`. -/
def joinSp : List Str → Str
  | [] => []
  | [w] => w
  | w :: ws => w ++ ' ' :: joinSp ws

/-- Model of `', '.join(ws)`. -/
def joinComma : List Str → Str
  | [] => []
  | [w] => w
  | w :: ws => w ++ ',' :: ' ' :: joinComma ws

/-! ## Stop words and options (`DEFAULT_STOPWORDS`, `_get_stopwords`,
`_parse_rank_limit`) -/
/-- The module-level `DEFAULT_STOPWORDS` set, lines 15–26 of the source
(a set in Python; modelled as a list used by membership only). -/
def DEFAULT_STOPWORDS : List Str :=
  ["the", "a", "an", "and", "or", "but", "in", "on", "at", "to", "for", "of",
   "with", "by", "from", "up", "about", "into", "through", "during", "before",
   "after", "above", "below", "between", "among", "is", "are", "was", "were",
   "be", "been", "being", "have", "has", "had", "do", "does", "did", "will",
   "would", "could", "should", "may", "might", "must", "can", "this", "that",
   "these", "those", "i", "you", "he", "she", "it", "we", "they", "me", "him",
   "her", "us", "them", "my", "your", "his", "its", "our", "their", "mine",
   "yours", "hers", "ours", "theirs", "myself", "yourself", "himself",
   "herself", "itself", "ourselves", "yourselves", "themselves", "what",
   "which", "who", "whom", "whose", "where", "when", "why", "how", "all",
   "any", "both", "each", "few", "more", "most", "other", "some", "such",
   "no", "nor", "not", "only", "own", "same", "so", "than", "too", "very",
   "s", "t", "just", "now"].map String.toList

/-- The options dict passed to the matcher; absent keys are modelled by the
empty string, matching `options.get(key, '')`. -/
structure Options where
  rank_limit : Str
  custom_stopwords : Str

/-- The method `_get_stopwords`, lines 49–56: the default set plus the comma-separated,
stripped, lowercased, non-empty custom words. -/
def getStopwords (o : Options) : List Str :=
  DEFAULT_STOPWORDS ++
    (o.custom_stopwords.splitOn ',').filterMap (fun w =>
      if pyStrip w = [] then none else some (toLowerS (pyStrip w)))

/-- Model of `str.isdigit()` on the modelled (ASCII) subset: non-empty and all
characters `0`–`9`. -/
def pyIsdigit (s : Str) : Bool :=
  !s.isEmpty && s.all (fun c => '0' ≤ c && c ≤ '9')

/-- Model of `int(s)` for a string of ASCII digits. -/
def strToNat (s : Str) : ℕ :=
  s.foldl (fun n c => n * 10 + (c.toNat - 48)) 0

/-- The method `_parse_rank_limit`, lines 58–63: `int(rank_limit)` when the option is a
non-empty all-digit string, `None` otherwise. -/
def parseRankLimit (o : Options) : Option ℕ :=
  if pyIsdigit o.rank_limit then some (strToNat o.rank_limit) else none

/-! ## `clean_phrase` (lines 121–130) -/
/-- One character of the `re.sub(r'[^\w\s一-鿿]', ' ', phrase)`
step: characters that are neither word characters nor whitespace are
replaced by a space. -/
def subChar (c : Char) : Char :=
  if isWordChar c || isSpaceChar c then c else ' '

/-- The method `clean_phrase`, lines 121–130: empty input returns empty; otherwise fold
widths, replace non-word non-space characters by spaces, lowercase, split on
whitespace, drop stop words and words of length ≤ 1, rejoin with single
spaces. -/
def cleanPhrase (sw : List Str) (phrase : Str) : Str :=
  if phrase = [] then []
  else
    joinSp ((wsplit (toLowerS ((strQ2B phrase).map subChar))).filter
      (fun w => w ∉ sw ∧ 1 < w.length))

/-! ## Index construction (`_build_index`, lines 107–119) -/
/-- One index entry: the normalized keyword string and the row it came from
(the `(w, i)` tuples appended in `_build_index`). -/
abbrev Entry := Str × ℕ

/-- The Python sort key `lambda x: (len(x[0].split()), len(x[0]))`. -/
def entryKey (e : Entry) : ℕ × ℕ := ((wsplit e.1).length, e.1.length)

/-- Strict lexicographic "greater" on sort keys. -/
def keyGt (a b : ℕ × ℕ) : Prop := b.1 < a.1 ∨ (a.1 = b.1 ∧ b.2 < a.2)

instance (a b : ℕ × ℕ) : Decidable (keyGt a b) := by
  unfold keyGt; infer_instance

/-- Insert `e` into an already stable-descending-sorted list: `e` goes after
every element with a strictly greater key and before everything else.  Used
from the right fold `stableSortDesc`, this yields exactly the stable
descending order of CPython's `list.sort(key=…, reverse=True)`. -/
def insertDesc (key : α → ℕ × ℕ) (e : α) : List α → List α
  | [] => [e]
  | x :: xs =>
    if keyGt (key x) (key e) then x :: insertDesc key e xs else e :: x :: xs

/-- Stable descending sort by `key` (model of
`list.sort(key=…, reverse=True)`: sorted descending, ties in original
order — which determines the result uniquely). -/
def stableSortDesc (key : α → ℕ × ℕ) : List α → List α
  | [] => []
  | e :: es => insertDesc key e (stableSortDesc key es)

/-- The index: a Python dict from first token to its bucket of entries,
modelled as an association list (keys unique by construction). -/
abbrev Index := List (Str × List Entry)

/-- Model of `index.setdefault(first, []).append((w, i))`. -/
def appendAt (idx : Index) (k : Str) (e : Entry) : Index :=
  match idx with
  | [] => [(k, [e])]
  | (k', b) :: rest =>
    if k' = k then (k', b ++ [e]) :: rest else (k', b) :: appendAt rest k e

/-- Bucket lookup: `index[word]` when present, `[]` when absent (the source
guards lookups with `if word in index`, so the two are interchangeable). -/
def findBucket (idx : Index) (k : Str) : List Entry :=
  match idx.find? (fun p => p.1 = k) with
  | some p => p.2
  | none => []

/-- The accumulation loop of `_build_index` (lines 110–115): for each word,
normalize with `strQ2B(word.strip().lower())`, skip empties, and append the
entry under its first token.  `i` is the `enumerate` counter. -/
def preIndex : List Str → ℕ → Index → Index
  | [], _, acc => acc
  | w :: ws, i, acc =>
    let v := strQ2B (toLowerS (pyStrip w))
    if v = [] then preIndex ws (i + 1) acc
    else
      let first := match wsplit v with
        | [] => v
        | t :: _ => t
      preIndex ws (i + 1) (appendAt acc first (v, i))

/-- The method `_build_index`, lines 107–119: accumulate entries, then sort each bucket
descending by `(token count, character length)` with a stable sort. -/
def buildIndex (wordList : List Str) : Index :=
  (preIndex wordList 0 []).map (fun p => (p.1, stableSortDesc entryKey p.2))

/-! ## Matching (`match_from_index`, lines 132–161) -/
/-- A recorded match: the matched entry string, its start position, and the
number of token positions it spans.  The source stores
`(keyword, i, i + L - 1)` and claims `range(i, i + L)`; we store `(kw, i, L)`
so the claimed span is `Finset.Ico i (i + L)` with no natural-subtraction
corner at `L = 0`. -/
abbrev MatchRec := Str × ℕ × ℕ

/-- The match test of the inner loop (lines 146–158): a single-token entry
matches iff it equals the scanned word; a multi-token entry of `L` tokens
matches iff it fits inside the token sequence and equals the corresponding
space-joined span.  Only the start position is consulted — no check that the
rest of the span is unclaimed. -/
def fits (words : List Str) (i : ℕ) (kw : Str) : Bool :=
  if (wsplit kw).length = 1 then decide (words.getD i [] = kw)
  else
    decide (i + (wsplit kw).length ≤ words.length) &&
      decide (joinSp ((words.drop i).take (wsplit kw).length) = kw)

/-- The inner candidate loop (`for keyword, _ in index[word]`): return the
first fitting entry together with its token span, `none` if no candidate
fits. -/
def tryEntries (words : List Str) (i : ℕ) : List Entry → Option (Str × ℕ)
  | [] => none
  | (kw, _) :: rest =>
    if fits words i kw then some (kw, (wsplit kw).length)
    else tryEntries words i rest

/-- The position scan of `match_from_index` (lines 140–159), written as a
recursion over `enumerate(words)`: skip claimed positions, look the word up
in the index, take the first fitting candidate, claim its span, continue. -/
def matchGo (words : List Str) (idx : Index) :
    List (ℕ × Str) → Finset ℕ → List MatchRec × Finset ℕ
  | [], used => ([], used)
  | (i, word) :: rest, used =>
    if i ∈ used then matchGo words idx rest used
    else
      match tryEntries words i (findBucket idx word) with
      | none => matchGo words idx rest used
      | some (kw, L) =>
        let r := matchGo words idx rest (used ∪ Finset.Ico i (i + L))
        ((kw, i, L) :: r.1, r.2)

/-- The method `match_from_index`, lines 132–161: split the phrase and scan it. -/
def matchFromIndex (phrase : Str) (idx : Index) (used : Finset ℕ) :
    List MatchRec × Finset ℕ :=
  matchGo (wsplit phrase) idx (wsplit phrase).enum used

/-- Token positions claimed by a list of matches (`used_positions.add`). -/
def claimedOf (ms : List MatchRec) : Finset ℕ :=
  ms.foldr (fun m acc => Finset.Ico m.2.1 (m.2.1 + m.2.2) ∪ acc) ∅

/-! ## The matcher and `extract_all` (lines 163–194) -/
/-- The state of a `WebKeywordMatcher` needed by extraction: the stop-word
set, the parsed rank limit, and the six field indexes. -/
structure Matcher where
  stopwords : List Str
  rank_limit : Option ℕ
  keyword_index : Index
  type_index : Index
  gender_index : Index
  size_index : Index
  age_index : Index
  brand_index : Index

/-- The six raw match lists of one extraction, with positions, plus the
final used-position set. -/
structure RawExtraction where
  keywords : List MatchRec
  brands : List MatchRec
  types : List MatchRec
  sizes : List MatchRec
  ages : List MatchRec
  genders : List MatchRec
  used : Finset ℕ

/-- The body of `extract_all` before the final projection to strings: clean
the phrase, then run the six field passes in the fixed order Keyword, Brand,
Type, Size, Age, Gender, threading one used-position set (initially empty). -/
def extractAllRaw (m : Matcher) (phrase : Str) : RawExtraction :=
  let cleaned := cleanPhrase m.stopwords phrase
  let r1 := matchFromIndex cleaned m.keyword_index ∅
  let r2 := matchFromIndex cleaned m.brand_index r1.2
  let r3 := matchFromIndex cleaned m.type_index r2.2
  let r4 := matchFromIndex cleaned m.size_index r3.2
  let r5 := matchFromIndex cleaned m.age_index r4.2
  let r6 := matchFromIndex cleaned m.gender_index r5.2
  ⟨r1.1, r2.1, r3.1, r4.1, r5.1, r6.1, r6.2⟩

/-- The result dict of `extract_all`: six lists of matched entry strings and
the uncovered words. -/
structure ExtractionResult where
  keywords : List Str
  brands : List Str
  types : List Str
  sizes : List Str
  ages : List Str
  genders : List Str
  uncovered_words : List Str
deriving DecidableEq

/-- The method `extract_all`, lines 163–194: all-empty result when the cleaned phrase is
empty; otherwise the six match passes, plus the words at unclaimed
positions in original order. -/
def extractAll (m : Matcher) (phrase : Str) : ExtractionResult :=
  let cleaned := cleanPhrase m.stopwords phrase
  if cleaned = [] then ⟨[], [], [], [], [], [], []⟩
  else
    let r := extractAllRaw m phrase
    let words := wsplit cleaned
    ⟨r.keywords.map (fun k => k.1), r.brands.map (fun k => k.1),
     r.types.map (fun k => k.1), r.sizes.map (fun k => k.1),
     r.ages.map (fun k => k.1), r.genders.map (fun k => k.1),
     ((List.range words.length).filter (fun i => i ∉ r.used)).map
       (fun i => words.getD i [])⟩

/-! ## Column mapping and database loading (`_load_keyword_database`,
lines 65–105) -/
/-- The canonical field roles of the reference table. -/
inductive Role where
  | Keyword | Type | Gender | Size | SpecialAge | Brand
deriving DecidableEq

/-- Header normalization, line 69:
`strQ2B(str(c)).strip().replace(' ', '').replace('（', '(').replace('）', ')')`.
(The full-width parentheses are already folded by `strQ2B`, so the last two
replacements are inert; they are kept for faithfulness.) -/
def headerNorm (c : Str) : Str :=
  ((pyStrip (strQ2B c)).filter (fun ch => ch ≠ ' ')).map
    (fun ch => if ch = '（' then '(' else if ch = '）' then ')' else ch)

/-- Model of `sub in s` for strings: some tail of `s` starts with `sub`. -/
def isSubstrOf (sub s : Str) : Bool :=
  s.tails.any (fun t => sub.isPrefixOf t)

/-- The `if/elif` chain of the header loop (lines 75–85): the first role
whose test matches the (already normalized) header, if any. -/
def roleOf (c : Str) : Option Role :=
  if isSubstrOf "keyword".toList (toLowerS c) || isSubstrOf "关键词".toList c then
    some .Keyword
  else if isSubstrOf "type".toList (toLowerS c) || isSubstrOf "类型".toList c then
    some .Type
  else if isSubstrOf "gender".toList (toLowerS c) || isSubstrOf "性别".toList c then
    some .Gender
  else if isSubstrOf "size".toList (toLowerS c) || isSubstrOf "尺码".toList c then
    some .Size
  else if isSubstrOf "age".toList (toLowerS c) || isSubstrOf "年龄".toList c ||
      isSubstrOf "specialage".toList (toLowerS (c.filter (fun ch => ch ≠ ' '))) then
    some .SpecialAge
  else if isSubstrOf "brand".toList (toLowerS c) || isSubstrOf "品牌".toList c then
    some .Brand
  else none

/-- The `col_map` dict built by the header loop (lines 73–86): each matching
header *assigns* `col_map[role] = c`, so for every role the last matching
header in column order is kept. -/
def colMap (headers : List Str) (ρ : Role) : Option Str :=
  headers.foldl (fun acc c =>
    match roleOf c with
    | some ρ' => if ρ' = ρ then some c else acc
    | none => acc) none

/-- The reference table handed to the matcher: a sequence of columns, each a
header plus its cell values (the file I/O that produces it is external). -/
abbrev Table := List (Str × List Str)

/-- The table with normalized headers (the source normalizes
`keyword_df.columns` in place on line 69). -/
def normTable (t : Table) : Table :=
  t.map (fun p => (headerNorm p.1, p.2))

/-- Model of `df[h]`: the values of the first column labelled `h` (`[]` if absent;
the source only looks up labels it obtained from the header list). -/
def lookupCol (t : Table) (h : Str) : List Str :=
  match t.find? (fun p => p.1 = h) with
  | some p => p.2
  | none => []

/-- The per-role value lists of `_load_keyword_database` (lines 89–94):
the mapped column's values; if the role is unmapped, the first column's
values for `Keyword` (`col_map.get('Keyword', columns[0])`) and the empty
list for every other role (`… if 'Type' in col_map else []`, etc.). -/
def fieldList (t : Table) (ρ : Role) : List Str :=
  let nt := normTable t
  match colMap (nt.map (fun p => p.1)) ρ with
  | some h => lookupCol nt h
  | none =>
    if ρ = .Keyword then
      match nt with
      | [] => []
      | (h0, _) :: _ => lookupCol nt h0
    else []

/-- Matcher construction (`__init__` plus `_load_keyword_database`): stop
words, rank limit, and the six indexes built from the per-role value
lists. -/
def mkMatcher (t : Table) (o : Options) : Matcher where
  stopwords := getStopwords o
  rank_limit := parseRankLimit o
  keyword_index := buildIndex (fieldList t .Keyword)
  type_index := buildIndex (fieldList t .Type)
  gender_index := buildIndex (fieldList t .Gender)
  size_index := buildIndex (fieldList t .Size)
  age_index := buildIndex (fieldList t .SpecialAge)
  brand_index := buildIndex (fieldList t .Brand)

/-! ## Binary floating point model for the progress computation

`process_file` reports `int((idx + 1) / total_rows * 100)` (line 252), a
binary64 computation.  We model binary floating point with a 53-bit
significand and unbounded exponent: every value that occurs here lies in
`(0, 100]`, far from binary64's overflow and subnormal thresholds, so the
model agrees bit-for-bit with IEEE-754 binary64 on this computation. -/
/-- Round a rational to an integer, round-half-to-even. -/
def rhe (q : ℚ) : ℤ :=
  if q - ⌊q⌋ < 1 / 2 then ⌊q⌋
  else if 1 / 2 < q - ⌊q⌋ then ⌊q⌋ + 1
  else if Even ⌊q⌋ then ⌊q⌋ else ⌊q⌋ + 1

/-- Round a positive rational to the nearest binary float with a 53-bit
significand (ties to even): scale into `[2^52, 2^53)`, round the significand,
scale back. -/
def roundFl (q : ℚ) : ℚ :=
  (rhe (q * 2 ^ (52 - Int.log 2 q)) : ℚ) / 2 ^ (52 - Int.log 2 q)

/-- Correctly rounded float division. -/
def fdiv (a b : ℚ) : ℚ := roundFl (a / b)

/-- Correctly rounded float multiplication. -/
def fmul (a b : ℚ) : ℚ := roundFl (a * b)

/-- Model of `int((completed / total) * 100)` in float arithmetic (`int` truncates,
which is `⌊·⌋` for the non-negative values that occur). -/
def pyProgress (total completed : ℕ) : ℤ :=
  ⌊fmul (fdiv (completed : ℚ) (total : ℚ)) 100⌋

/-! ## Batch processing (`process_file`, lines 196–273) and statistics
(`_generate_statistics`, lines 275–298) -/
/-- One output row (the joined-string fields of `result_row` that the
statistics consume; the original phrase and pass-through columns are
plumbing). -/
structure ResultRow where
  kw : Str
  br : Str
  ty : Str
  sz : Str
  ag : Str
  gd : Str
  unc : Str

/-- Build one result row from a phrase (lines 229–241). -/
def mkRow (m : Matcher) (phrase : Str) : ResultRow :=
  let e := extractAll m phrase
  ⟨joinComma e.keywords, joinComma e.brands, joinComma e.types,
   joinComma e.sizes, joinComma e.ages, joinComma e.genders,
   joinComma e.uncovered_words⟩

/-- The rank-limit truncation of `process_file` (lines 217–219):
`if self.rank_limit and self.rank_limit > 0: df = df.head(self.rank_limit)`
(both `None` and `0` are falsy, so only a positive parsed limit
truncates). -/
def effectivePhrases (m : Matcher) (phrases : List Str) : List Str :=
  match m.rank_limit with
  | some k => if 0 < k then phrases.take k else phrases
  | none => phrases

/-- The row-processing loop of `process_file` (lines 217–253), after the
file I/O and phrase-column scan: truncate, process the rows in order, and
report `int((idx + 1) / total_rows * 100)` after each row.  Returns the
result rows and the reported progress values. -/
def processPhrases (m : Matcher) (phrases : List Str) :
    List ResultRow × List ℤ :=
  ((effectivePhrases m phrases).map (mkRow m),
   (List.range (effectivePhrases m phrases).length).map
     (fun idx => pyProgress (effectivePhrases m phrases).length (idx + 1)))

/-- Inverse of `', '.join(...)`: `s.split(', ')` (line 288). -/
def splitCommaSp : Str → List Str
  | [] => [[]]
  | ',' :: ' ' :: cs => [] :: splitCommaSp cs
  | c :: cs =>
    match splitCommaSp cs with
    | [] => [[c]]
    | w :: ws => (c :: w) :: ws

/-- Model of `round(x, 2)` on the exact value: round `100 x` half-to-even. -/
def round2 (q : ℚ) : ℚ := (rhe (q * 100) : ℚ) / 100

/-- Model of `Counter(xs).most_common(k)`: distinct elements in first-occurrence
order with their counts, stably sorted by descending count, first `k`. -/
def mostCommon (k : ℕ) (xs : List Str) : List (Str × ℕ) :=
  (stableSortDesc (fun p => (p.2, 0))
    ((xs.foldl (fun acc w => if w ∈ acc then acc else acc ++ [w]) []).map
      (fun w => (w, xs.count w)))).take k

/-- The statistics record returned by `_generate_statistics`. -/
structure Stats where
  total_phrases : ℕ
  keyword_coverage : ℚ
  brand_coverage : ℚ
  type_coverage : ℚ
  top_uncovered_words : List (Str × ℕ)

/-- The method `_generate_statistics`, lines 275–298: per-field coverage is the share
of rows whose joined field string is non-empty (Python truthiness), times
100, rounded to two decimals; 0 when there are no rows.  The uncovered-word
strings are split back on `', '` and counted. -/
def genStats (results : List ResultRow) : Stats :=
  let total := results.length
  let cov := fun (proj : ResultRow → Str) =>
    if 0 < total then
      round2 ((results.countP (fun r => proj r ≠ [])) / (total : ℚ) * 100)
    else round2 0
  { total_phrases := total
    keyword_coverage := cov (fun r => r.kw)
    brand_coverage := cov (fun r => r.br)
    type_coverage := cov (fun r => r.ty)
    top_uncovered_words := mostCommon 10
      ((results.filter (fun r => r.unc ≠ [])).flatMap
        (fun r => splitCommaSp r.unc)) }

/-! ## The six sequential field passes -/
/-- The sequential field passes sharing one used-position set (the six
`match_from_index` calls of `extract_all`, generalized to any list of
indexes). -/
def runPasses (c : Str) : List Index → Finset ℕ → List (List MatchRec) × Finset ℕ
  | [], u => ([], u)
  | idx :: rest, u =>
    let r := matchFromIndex c idx u
    let s := runPasses c rest r.2
    (r.1 :: s.1, s.2)

/-- The six match lists of an extraction, in processing order (Keyword,
Brand, Type, Size, Age, Gender). -/
def fieldMatches (r : RawExtraction) : List (List MatchRec) :=
  [r.keywords, r.brands, r.types, r.sizes, r.ages, r.genders]

/-- The index list of a matcher in processing order. -/
def fieldIndexes (m : Matcher) : List Index :=
  [m.keyword_index, m.brand_index, m.type_index, m.size_index,
   m.age_index, m.gender_index]

/-- All entries reachable from an index are single-token (at most one
token; the zero-token case is the degenerate empty entry). -/
def singleTokenIndex (idx : Index) : Prop :=
  ∀ w : Str, ∀ e ∈ findBucket idx w, (wsplit e.1).length ≤ 1

/-! ## Concrete instances for counterexamples and witnesses -/
/-- Shorthand for string literals as character lists. -/
def strL (s : String) : Str := s.toList

/-- A reference table whose Keyword column holds `yy` and whose Brand column
holds the two-token entry `xx yy`. -/
def tblOverlap : Table :=
  [(strL "Keyword", [strL "yy"]), (strL "Brand", [strL "xx yy"])]

def mOverlap : Matcher := mkMatcher tblOverlap ⟨[], []⟩

/-- A reference table with `tt` in the Keyword column and both `tt` and
`aa tt` in the Brand column. -/
def tblPriority : Table :=
  [(strL "Keyword", [strL "tt", strL "tt"]),
   (strL "Brand", [strL "tt", strL "aa tt"])]

def mPriority : Matcher := mkMatcher tblPriority ⟨[], []⟩

/-- A reference table with only single-token entries. -/
def tblSingle : Table :=
  [(strL "Keyword", [strL "mm"]), (strL "Brand", [strL "nn"])]

def mSingle : Matcher := mkMatcher tblSingle ⟨[], []⟩

/-! ## Sortedness and stability of the index buckets (C2) -/
/-- The stable descending order of a bucket: strictly greater key, or equal
keys with the earlier (smaller) original row first. -/
def stableDesc (key : α → ℕ × ℕ) (row : α → ℕ) (a b : α) : Prop :=
  keyGt (key a) (key b) ∨ (key a = key b ∧ row a < row b)

/-- Two headers both matching the Keyword role, in normalized form. -/
def hdrsDup : List Str := [strL "keyword1", strL "keyword2"]

/-- A reference table with two Keyword-matching headers. -/
def tblDup : Table :=
  [(strL "keyword1", [strL "v1"]), (strL "keyword2", [strL "v2"])]

/-- A reference table whose single header matches no role. -/
def tblNoRoles : Table := [(strL "colA", [strL "v1", strL "v2"])]

/-- Five arbitrary input phrases. -/
def ps5 : List Str := [strL "p1", strL "p2", strL "p3", strL "p4", strL "p5"]

/-- Four input phrases, three of which contain the Keyword entry `yy`. -/
def ps4 : List Str := [strL "yy", strL "yy zz", strL "qq", strL "yy"]

/-- One hundred input rows. -/
def ps100 : List Str := List.replicate 100 []

/-- Ten input rows. -/
def ps10 : List Str := List.replicate 10 []

/-! ## Theorems -/

/-! ## Basic properties of the string operations -/
theorem charToNat_ofNat {n : ℕ} (h : n < 55296) : (Char.ofNat n).toNat = n := by
  unfold Char.ofNat
  rw [dif_pos (Or.inl h)]
  rfl

theorem splitOnP_chunk_mem {α : Type} {p : α → Bool} :
    ∀ {s : List α}, ∀ w ∈ s.splitOnP p, ∀ c ∈ w, c ∈ s ∧ p c = false := by
  intro s
  induction s with
  | nil => intro w hw c hc; rw [List.splitOnP_nil] at hw; simp at hw; simp [hw] at hc
  | cons x xs ih =>
    intro w hw c hc
    rw [List.splitOnP_cons] at hw
    by_cases hp : p x
    · rw [if_pos hp] at hw
      rcases List.mem_cons.mp hw with h | h
      · simp [h] at hc
      · have := ih w h c hc
        exact ⟨List.mem_cons_of_mem x this.1, this.2⟩
    · rw [if_neg hp] at hw
      cases hxs : xs.splitOnP p with
      | nil => exact absurd hxs (List.splitOnP_ne_nil p xs)
      | cons h t =>
        rw [hxs] at hw
        simp only [List.modifyHead] at hw
        rcases List.mem_cons.mp hw with h1 | h1
        · subst h1
          rcases List.mem_cons.mp hc with h2 | h2
          · subst h2; exact ⟨List.mem_cons_self c xs, Bool.eq_false_iff.mpr hp⟩
          · have := ih h (hxs ▸ List.mem_cons_self h t) c h2
            exact ⟨List.mem_cons_of_mem x this.1, this.2⟩
        · have := ih w (hxs ▸ List.mem_cons_of_mem h h1) c hc
          exact ⟨List.mem_cons_of_mem x this.1, this.2⟩

theorem mem_wsplit {w : Str} {s : Str} (hw : w ∈ wsplit s) :
    w ≠ [] ∧ ∀ c ∈ w, c ∈ s ∧ isSpaceChar c = false := by
  unfold wsplit at hw
  have h1 := List.of_mem_filter hw
  have h2 := List.mem_of_mem_filter hw
  exact ⟨by simpa using h1, splitOnP_chunk_mem w h2⟩

theorem wsplit_nil : wsplit ([] : Str) = [] := by
  unfold wsplit; rw [List.splitOnP_nil]; rfl

theorem wsplit_eq_single {w : Str} (h1 : w ≠ [])
    (h2 : ∀ c ∈ w, isSpaceChar c = false) : wsplit w = [w] := by
  unfold wsplit
  rw [List.splitOnP_eq_single _ _ (fun c hc => by simp [h2 c hc])]
  simp [h1]

theorem wsplit_append_cons {w t : Str} (h2 : ∀ c ∈ w, isSpaceChar c = false)
    {sep : Char} (hsep : isSpaceChar sep = true) :
    wsplit (w ++ sep :: t) = (if w = [] then [] else [w]) ++ wsplit t := by
  unfold wsplit
  rw [List.splitOnP_first _ _ (fun c hc => by simp [h2 c hc]) sep hsep]
  by_cases hw : w = [] <;> simp [hw]

theorem wsplit_joinSp {ws : List Str}
    (h : ∀ w ∈ ws, w ≠ [] ∧ ∀ c ∈ w, isSpaceChar c = false) :
    wsplit (joinSp ws) = ws := by
  induction ws with
  | nil => exact wsplit_nil
  | cons w ws ih =>
    cases ws with
    | nil =>
      show wsplit w = [w]
      exact wsplit_eq_single (h w (by simp)).1 (h w (by simp)).2
    | cons w' ws' =>
      show wsplit (w ++ ' ' :: joinSp (w' :: ws')) = w :: w' :: ws'
      rw [wsplit_append_cons (h w (by simp)).2 (by decide),
        if_neg (h w (by simp)).1,
        ih (fun u hu => h u (List.mem_cons_of_mem w hu))]
      rfl

theorem mem_joinSp {c : Char} {ws : List Str} (hc : c ∈ joinSp ws) :
    c = ' ' ∨ ∃ w ∈ ws, c ∈ w := by
  induction ws with
  | nil => simp [joinSp] at hc
  | cons w ws ih =>
    cases ws with
    | nil => exact Or.inr ⟨w, by simp, hc⟩
    | cons w' ws' =>
      rcases List.mem_append.mp hc with h | h
      · exact Or.inr ⟨w, by simp, h⟩
      · rcases List.mem_cons.mp h with h | h
        · exact Or.inl h
        · rcases ih h with h1 | ⟨u, hu, hcu⟩
          · exact Or.inl h1
          · exact Or.inr ⟨u, List.mem_cons_of_mem w hu, hcu⟩

/-! ## Character analysis for the cleaning pipeline -/
theorem toNat_foldChar_avoid (a : Char) :
    (foldChar a).toNat ≠ 12288 ∧
      ¬(65281 ≤ (foldChar a).toNat ∧ (foldChar a).toNat ≤ 65374) := by
  unfold foldChar
  split_ifs with h1 h2
  · exact ⟨by decide, by decide⟩
  · simp only [Bool.and_eq_true, decide_eq_true_eq] at h2
    rw [charToNat_ofNat (by omega)]
    omega
  · simp only [Bool.and_eq_true, decide_eq_true_eq, not_and] at h2
    exact ⟨h1, by omega⟩

theorem foldChar_fixed {c : Char} (h1 : c.toNat ≠ 12288)
    (h2 : ¬(65281 ≤ c.toNat ∧ c.toNat ≤ 65374)) : foldChar c = c := by
  unfold foldChar
  rw [if_neg h1, if_neg (by simpa using h2)]

theorem subChar_of_word {c : Char} (h : isWordChar c = true) : subChar c = c := by
  unfold subChar
  rw [if_pos (by simp [h])]

theorem toLowerChar_fixed {c : Char}
    (h : ¬((65 ≤ c.toNat ∧ c.toNat ≤ 90) ∨ (65313 ≤ c.toNat ∧ c.toNat ≤ 65338))) :
    toLowerChar c = c := by
  unfold toLowerChar
  rw [if_neg (by simpa using h)]

/-- The key fact about one character of the cleaning pipeline: a character
that survives fold–substitute–lowercase without being whitespace is a word
character fixed by another round of folding and lowercasing. -/
theorem cleanChar_spec (a : Char)
    (hs : isSpaceChar (toLowerChar (subChar (foldChar a))) = false) :
    isWordChar (toLowerChar (subChar (foldChar a))) = true ∧
      foldChar (toLowerChar (subChar (foldChar a))) =
        toLowerChar (subChar (foldChar a)) ∧
      toLowerChar (toLowerChar (subChar (foldChar a))) =
        toLowerChar (subChar (foldChar a)) := by
  have havoid := toNat_foldChar_avoid a
  by_cases hkeep : (isWordChar (foldChar a) || isSpaceChar (foldChar a)) = true
  · have he : subChar (foldChar a) = foldChar a := by
      unfold subChar; rw [if_pos hkeep]
    rw [he] at hs ⊢
    by_cases hlow : ((65 ≤ (foldChar a).toNat ∧ (foldChar a).toNat ≤ 90) ∨
        (65313 ≤ (foldChar a).toNat ∧ (foldChar a).toNat ≤ 65338))
    · have hAZ : 65 ≤ (foldChar a).toNat ∧ (foldChar a).toNat ≤ 90 := by
        rcases hlow with h | h
        · exact h
        · exact absurd ⟨by omega, by omega⟩ havoid.2
      have hc : toLowerChar (foldChar a) = Char.ofNat ((foldChar a).toNat + 32) := by
        unfold toLowerChar
        rw [if_pos (by simp; omega)]
      have hcn : (toLowerChar (foldChar a)).toNat = (foldChar a).toNat + 32 := by
        rw [hc, charToNat_ofNat (by omega)]
      refine ⟨?_, ?_, ?_⟩
      · unfold isWordChar; rw [hcn]; simp; omega
      · exact foldChar_fixed (by omega) (by omega)
      · exact toLowerChar_fixed (by rw [hcn]; omega)
    · have hc : toLowerChar (foldChar a) = foldChar a := toLowerChar_fixed hlow
      rw [hc] at hs ⊢
      have hword : isWordChar (foldChar a) = true := by
        rcases Bool.or_eq_true_iff.mp hkeep with h | h
        · exact h
        · rw [h] at hs; exact absurd hs (by simp)
      exact ⟨hword, foldChar_fixed havoid.1 havoid.2, hc⟩
  · have he : subChar (foldChar a) = ' ' := by
      unfold subChar; rw [if_neg hkeep]
    rw [he] at hs
    have : toLowerChar ' ' = ' ' := by decide
    rw [this] at hs
    exact absurd hs (by decide)

/-- Characters of a cleaned phrase and the fixedness facts about them. -/
theorem cleanPhrase_word_spec {sw : List Str} {x : Str} {w : Str}
    (hw : w ∈ (wsplit (toLowerS ((strQ2B x).map subChar))).filter
      (fun w => w ∉ sw ∧ 1 < w.length)) :
    w ≠ [] ∧ ∀ c ∈ w, isWordChar c = true ∧ isSpaceChar c = false ∧
      foldChar c = c ∧ toLowerChar c = c := by
  have hw' := List.mem_of_mem_filter hw
  obtain ⟨hne, hall⟩ := mem_wsplit hw'
  refine ⟨hne, fun c hc => ?_⟩
  obtain ⟨hmem, hnsp⟩ := hall c hc
  have : ∃ a ∈ x, toLowerChar (subChar (foldChar a)) = c := by
    unfold toLowerS strQ2B at hmem
    rw [List.map_map, List.map_map] at hmem
    simpa using List.mem_map.mp hmem
  obtain ⟨a, _, rfl⟩ := this
  obtain ⟨h1, h2, h3⟩ := cleanChar_spec a hnsp
  exact ⟨h1, hnsp, h2, h3⟩

/-- C7 helper: strings all of whose characters are fixed by a map are fixed
by the induced string map. -/
theorem map_fixed {f : Char → Char} {s : Str} (h : ∀ c ∈ s, f c = c) :
    s.map f = s := by
  induction s with
  | nil => rfl
  | cons c cs ih =>
    simp only [List.map_cons, h c (by simp), List.cons.injEq, true_and]
    exact ih (fun d hd => h d (List.mem_cons_of_mem c hd))

/-- C7 (confirmed).  Normalization idempotence: applying `clean_phrase` to
its own output leaves it unchanged, for every stop-word set and every input
string. -/
theorem cleanPhrase_idempotent (sw : List Str) (x : Str) :
    cleanPhrase sw (cleanPhrase sw x) = cleanPhrase sw x := by
  by_cases hx : x = []
  · have h0 : cleanPhrase sw ([] : Str) = [] := by
      unfold cleanPhrase; rw [if_pos rfl]
    rw [hx, h0, h0]
  · have hy : cleanPhrase sw x =
        joinSp ((wsplit (toLowerS ((strQ2B x).map subChar))).filter
          (fun w => w ∉ sw ∧ 1 < w.length)) := by
      unfold cleanPhrase; rw [if_neg hx]
    set ws := (wsplit (toLowerS ((strQ2B x).map subChar))).filter
      (fun w => w ∉ sw ∧ 1 < w.length) with hws
    by_cases hyn : joinSp ws = []
    · rw [hy, hyn]
      unfold cleanPhrase; rw [if_pos rfl]
    · rw [hy]
      have hs1 : strQ2B (joinSp ws) = joinSp ws := by
        apply map_fixed
        intro c hc
        rcases mem_joinSp hc with h | ⟨w, hw, hcw⟩
        · rw [h]; decide
        · exact ((cleanPhrase_word_spec hw).2 c hcw).2.2.1
      have hs2 : (joinSp ws).map subChar = joinSp ws := by
        apply map_fixed
        intro c hc
        rcases mem_joinSp hc with h | ⟨w, hw, hcw⟩
        · rw [h]; decide
        · exact subChar_of_word ((cleanPhrase_word_spec hw).2 c hcw).1
      have hs3 : toLowerS (joinSp ws) = joinSp ws := by
        apply map_fixed
        intro c hc
        rcases mem_joinSp hc with h | ⟨w, hw, hcw⟩
        · rw [h]; decide
        · exact ((cleanPhrase_word_spec hw).2 c hcw).2.2.2
      have hs4 : wsplit (joinSp ws) = ws := by
        apply wsplit_joinSp
        intro w hw
        obtain ⟨hne, hp⟩ := cleanPhrase_word_spec hw
        exact ⟨hne, fun c hc => (hp c hc).2.1⟩
      have hs5 : ws.filter (fun w => w ∉ sw ∧ 1 < w.length) = ws := by
        apply List.filter_eq_self.mpr
        intro w hw
        rw [hws] at hw
        have h2 := List.of_mem_filter hw
        exact h2
      calc cleanPhrase sw (joinSp ws)
          = joinSp ((wsplit (toLowerS ((strQ2B (joinSp ws)).map subChar))).filter
              (fun w => w ∉ sw ∧ 1 < w.length)) := by
            unfold cleanPhrase; rw [if_neg hyn]
        _ = joinSp ws := by rw [hs1, hs2, hs3, hs4, hs5]

/-! ## Properties of the matching scan -/
theorem mem_claimedOf {x : ℕ} : ∀ {ms : List MatchRec},
    x ∈ claimedOf ms ↔ ∃ m ∈ ms, m.2.1 ≤ x ∧ x < m.2.1 + m.2.2 := by
  intro ms
  induction ms with
  | nil => simp [claimedOf]
  | cons m ms ih =>
    simp only [claimedOf, List.foldr_cons, Finset.mem_union, Finset.mem_Ico,
      List.mem_cons]
    rw [show (List.foldr (fun m acc => Finset.Ico m.2.1 (m.2.1 + m.2.2) ∪ acc)
      ∅ ms) = claimedOf ms from rfl, ih]
    constructor
    · rintro (h | ⟨m', hm', h'⟩)
      · exact ⟨m, Or.inl rfl, h⟩
      · exact ⟨m', Or.inr hm', h'⟩
    · rintro ⟨m', (rfl | hm'), h'⟩
      · exact Or.inl h'
      · exact Or.inr ⟨m', hm', h'⟩

theorem tryEntries_eq_some {words : List Str} {i : ℕ} :
    ∀ {b : List Entry} {kw : Str} {L : ℕ},
      tryEntries words i b = some (kw, L) →
      (∃ r, (kw, r) ∈ b) ∧ L = (wsplit kw).length ∧ fits words i kw = true := by
  intro b
  induction b with
  | nil => intro kw L h; simp [tryEntries] at h
  | cons e rest ih =>
    intro kw L h
    obtain ⟨kw', r'⟩ := e
    unfold tryEntries at h
    by_cases hf : fits words i kw' = true
    · rw [if_pos hf] at h
      have h1 : kw' = kw := congrArg Prod.fst (Option.some.inj h)
      have h2 : (wsplit kw').length = L := congrArg Prod.snd (Option.some.inj h)
      subst h1
      exact ⟨⟨r', by simp⟩, h2.symm, hf⟩
    · rw [if_neg hf] at h
      obtain ⟨⟨r, hr⟩, h2, h3⟩ := ih h
      exact ⟨⟨r, List.mem_cons_of_mem _ hr⟩, h2, h3⟩

theorem tryEntries_isSome_of_fit {words : List Str} {i : ℕ} :
    ∀ {b : List Entry} (e : Entry), e ∈ b → fits words i e.1 = true →
      ∃ kw L, tryEntries words i b = some (kw, L) := by
  intro b
  induction b with
  | nil => intro e he; simp at he
  | cons e' rest ih =>
    intro e he hf
    obtain ⟨kw', r'⟩ := e'
    by_cases hf' : fits words i kw' = true
    · exact ⟨kw', (wsplit kw').length, by unfold tryEntries; rw [if_pos hf']⟩
    · rcases List.mem_cons.mp he with rfl | he'
      · exact absurd hf hf'
      · obtain ⟨kw, L, h⟩ := ih e he' hf
        exact ⟨kw, L, by unfold tryEntries; rw [if_neg hf']; exact h⟩

theorem fits_token_pos {words : List Str} {i : ℕ} {kw : Str}
    (h : fits words i kw = true) (hne : kw ≠ []) : 0 < (wsplit kw).length := by
  by_contra hL
  have h0 : (wsplit kw).length = 0 := by omega
  unfold fits at h
  rw [if_neg (by omega)] at h
  simp only [h0, Bool.and_eq_true, decide_eq_true_eq] at h
  exact hne (by simpa [joinSp] using h.2.symm)

theorem matchGo_used {words : List Str} {idx : Index} :
    ∀ (l : List (ℕ × Str)) (u : Finset ℕ),
      (matchGo words idx l u).2 = u ∪ claimedOf (matchGo words idx l u).1 := by
  intro l
  induction l with
  | nil => intro u; simp [matchGo, claimedOf]
  | cons p rest ih =>
    intro u
    obtain ⟨i, word⟩ := p
    unfold matchGo
    by_cases hu : i ∈ u
    · rw [if_pos hu]; exact ih u
    · rw [if_neg hu]
      cases htry : tryEntries words i (findBucket idx word) with
      | none => exact ih u
      | some v =>
        obtain ⟨kw, L⟩ := v
        simp only []
        rw [ih (u ∪ Finset.Ico i (i + L))]
        show u ∪ Finset.Ico i (i + L) ∪ _ =
          u ∪ claimedOf ((kw, i, L) :: (matchGo words idx rest
            (u ∪ Finset.Ico i (i + L))).1)
        simp only [claimedOf, List.foldr_cons]
        rw [show ∀ ms : List MatchRec, (List.foldr (fun m acc =>
          Finset.Ico m.2.1 (m.2.1 + m.2.2) ∪ acc) ∅ ms) = claimedOf ms
          from fun _ => rfl]
        rw [Finset.union_assoc]

theorem matchGo_used_mono {words : List Str} {idx : Index}
    {l : List (ℕ × Str)} {u : Finset ℕ} : u ⊆ (matchGo words idx l u).2 := by
  rw [matchGo_used]
  exact Finset.subset_union_left

theorem matchGo_matches {words : List Str} {idx : Index} :
    ∀ (l : List (ℕ × Str)) (u : Finset ℕ),
      ∀ m ∈ (matchGo words idx l u).1, m.2.1 ∉ u ∧
        ∃ word, (m.2.1, word) ∈ l ∧
          tryEntries words m.2.1 (findBucket idx word) = some (m.1, m.2.2) := by
  intro l
  induction l with
  | nil => intro u m hm; simp [matchGo] at hm
  | cons p rest ih =>
    intro u m hm
    obtain ⟨i, word⟩ := p
    unfold matchGo at hm
    by_cases hu : i ∈ u
    · rw [if_pos hu] at hm
      obtain ⟨h1, word', h2, h3⟩ := ih u m hm
      exact ⟨h1, word', List.mem_cons_of_mem _ h2, h3⟩
    · rw [if_neg hu] at hm
      cases htry : tryEntries words i (findBucket idx word) with
      | none =>
        rw [htry] at hm
        obtain ⟨h1, word', h2, h3⟩ := ih u m hm
        exact ⟨h1, word', List.mem_cons_of_mem _ h2, h3⟩
      | some v =>
        obtain ⟨kw, L⟩ := v
        rw [htry] at hm
        simp only [List.mem_cons] at hm
        rcases hm with rfl | hm
        · exact ⟨hu, word, by simp, htry⟩
        · obtain ⟨h1, word', h2, h3⟩ :=
            ih (u ∪ Finset.Ico i (i + L)) m hm
          exact ⟨fun hc => h1 (Finset.mem_union_left _ hc), word',
            List.mem_cons_of_mem _ h2, h3⟩

theorem matchGo_claims {words : List Str} {idx : Index} :
    ∀ (l : List (ℕ × Str)) (u : Finset ℕ) {j : ℕ} {w kw : Str} {L : ℕ},
      (j, w) ∈ l →
      tryEntries words j (findBucket idx w) = some (kw, L) → 0 < L →
      j ∈ (matchGo words idx l u).2 := by
  intro l
  induction l with
  | nil => intro u j w kw L h; simp at h
  | cons p rest ih =>
    intro u j w kw L hj htry hL
    obtain ⟨i, word⟩ := p
    unfold matchGo
    rcases List.mem_cons.mp hj with heq | hmem
    · obtain ⟨rfl, rfl⟩ := Prod.mk.injEq _ _ _ _ ▸ heq
      by_cases hu : j ∈ u
      · rw [if_pos hu]
        exact matchGo_used_mono hu
      · rw [if_neg hu, htry]
        simp only []
        apply matchGo_used_mono
        exact Finset.mem_union_right _ (Finset.mem_Ico.mpr ⟨le_refl j, by omega⟩)
    · by_cases hu : i ∈ u
      · rw [if_pos hu]; exact ih u hmem htry hL
      · rw [if_neg hu]
        cases htry' : tryEntries words i (findBucket idx word) with
        | none => exact ih u hmem htry hL
        | some v =>
          obtain ⟨kw', L'⟩ := v
          simp only []
          exact ih _ hmem htry hL

theorem extractAllRaw_eq_runPasses (m : Matcher) (phrase : Str) :
    fieldMatches (extractAllRaw m phrase) =
      (runPasses (cleanPhrase m.stopwords phrase) (fieldIndexes m) ∅).1 := rfl

theorem runPasses_starts_avoid {c : Str} :
    ∀ (idxs : List Index) (u : Finset ℕ),
      ∀ ms ∈ (runPasses c idxs u).1, ∀ mt ∈ ms, mt.2.1 ∉ u := by
  intro idxs
  induction idxs with
  | nil => intro u ms hms; simp [runPasses] at hms
  | cons idx rest ih =>
    intro u ms hms mt hmt
    simp only [runPasses, List.mem_cons] at hms
    rcases hms with rfl | hms
    · exact (matchGo_matches _ _ mt hmt).1
    · have h := ih _ ms hms mt hmt
      intro hc
      exact h (matchGo_used_mono hc)

theorem runPasses_used_mono {c : Str} :
    ∀ (idxs : List Index) (u : Finset ℕ), u ⊆ (runPasses c idxs u).2 := by
  intro idxs
  induction idxs with
  | nil => intro u; simp [runPasses]
  | cons idx rest ih =>
    intro u
    simp only [runPasses]
    exact le_trans matchGo_used_mono (ih _)

theorem runPasses_claimed_sub {c : Str} :
    ∀ (idxs : List Index) (u : Finset ℕ),
      ∀ ms ∈ (runPasses c idxs u).1, claimedOf ms ⊆ (runPasses c idxs u).2 := by
  intro idxs
  induction idxs with
  | nil => intro u ms hms; simp [runPasses] at hms
  | cons idx rest ih =>
    intro u ms hms
    simp only [runPasses, List.mem_cons] at hms ⊢
    rcases hms with rfl | hms
    · refine le_trans ?_ (runPasses_used_mono rest _)
      show claimedOf (matchFromIndex c idx u).1 ⊆ (matchFromIndex c idx u).2
      unfold matchFromIndex
      rw [matchGo_used]
      exact Finset.subset_union_right
    · exact ih _ ms hms

/-- C1, first component: a position claimed by an earlier-processed field is
never the *start* of a later field's match. -/
theorem runPasses_pairwise_starts {c : Str} :
    ∀ (idxs : List Index) (u : Finset ℕ),
      (runPasses c idxs u).1.Pairwise
        (fun ms1 ms2 => ∀ mt ∈ ms2, mt.2.1 ∉ claimedOf ms1) := by
  intro idxs
  induction idxs with
  | nil => intro u; simp [runPasses]
  | cons idx rest ih =>
    intro u
    simp only [runPasses]
    refine List.Pairwise.cons ?_ (ih _)
    intro ms hms mt hmt hc
    have h1 : mt.2.1 ∉ (matchFromIndex c idx u).2 :=
      runPasses_starts_avoid rest _ ms hms mt hmt
    apply h1
    unfold matchFromIndex
    rw [matchGo_used]
    exact Finset.mem_union_right _ hc

theorem claimedOf_sub_starts {c : Str} {idx : Index}
    (hidx : singleTokenIndex idx) {u : Finset ℕ} {x : ℕ}
    (hx : x ∈ claimedOf (matchFromIndex c idx u).1) :
    ∃ m ∈ (matchFromIndex c idx u).1, m.2.1 = x := by
  obtain ⟨m, hm, h1, h2⟩ := mem_claimedOf.mp hx
  obtain ⟨-, word, -, htry⟩ := matchGo_matches _ u m hm
  obtain ⟨⟨r, hr⟩, hL, -⟩ := tryEntries_eq_some htry
  have h3 : (wsplit m.1).length ≤ 1 := hidx word (m.1, r) hr
  exact ⟨m, hm, by omega⟩

theorem runPasses_mem_form {c : Str} : ∀ (idxs : List Index) (u : Finset ℕ),
    ∀ ms ∈ (runPasses c idxs u).1,
      ∃ idx' ∈ idxs, ∃ u', ms = (matchFromIndex c idx' u').1 := by
  intro idxs
  induction idxs with
  | nil => intro u ms h; simp [runPasses] at h
  | cons idx rest ih =>
    intro u ms hms
    simp only [runPasses, List.mem_cons] at hms
    rcases hms with rfl | hms
    · exact ⟨idx, by simp, u, rfl⟩
    · obtain ⟨idx', h1, u', h2⟩ := ih _ ms hms
      exact ⟨idx', List.mem_cons_of_mem _ h1, u', h2⟩

/-- C1, second component: with single-token entries the claimed sets of the
passes are pairwise disjoint. -/
theorem runPasses_pairwise_disjoint {c : Str} :
    ∀ (idxs : List Index) (u : Finset ℕ),
      (∀ idx ∈ idxs, singleTokenIndex idx) →
      (runPasses c idxs u).1.Pairwise
        (fun ms1 ms2 => Disjoint (claimedOf ms1) (claimedOf ms2)) := by
  intro idxs
  induction idxs with
  | nil => intro u h; simp [runPasses]
  | cons idx rest ih =>
    intro u h
    simp only [runPasses]
    refine List.Pairwise.cons ?_
      (ih _ (fun i hi => h i (List.mem_cons_of_mem _ hi)))
    intro ms hms
    rw [Finset.disjoint_right]
    intro x hx
    obtain ⟨idx', hidx', u', hform⟩ := runPasses_mem_form rest _ ms hms
    subst hform
    obtain ⟨m, hm, rfl⟩ :=
      claimedOf_sub_starts (h idx' (List.mem_cons_of_mem _ hidx')) hx
    have h1 : m.2.1 ∉ (matchFromIndex c idx u).2 :=
      runPasses_starts_avoid rest _ _ hms m hm
    intro hc
    apply h1
    show m.2.1 ∈ (matchGo _ _ _ _).2
    rw [matchGo_used]
    exact Finset.mem_union_right _ hc

theorem singleTokenIndex_of_entries {idx : Index}
    (h : ∀ p ∈ idx, ∀ e ∈ p.2, (wsplit e.1).length ≤ 1) :
    singleTokenIndex idx := by
  intro w e he
  unfold findBucket at he
  cases hf : idx.find? (fun p => p.1 = w) with
  | none => rw [hf] at he; simp at he
  | some p =>
    rw [hf] at he
    exact h p (List.mem_of_find?_eq_some hf) e he

/-- C1 (amended).  Across the six sequential passes: (1) a token position
claimed by an earlier-processed field is never the *start* of a later
field's recorded match, and (2) when every index entry is a single token,
the position sets claimed by the six fields are pairwise disjoint.  (Full
pairwise disjointness fails for multi-token entries: the scan only checks
that the start position is unclaimed, so the interior of a multi-token match
may re-claim positions of an earlier field; see the counterexample.) -/
theorem nonoverlap_amended (m : Matcher) (phrase : Str) :
    (fieldMatches (extractAllRaw m phrase)).Pairwise
      (fun ms1 ms2 => ∀ mt ∈ ms2, mt.2.1 ∉ claimedOf ms1) ∧
    ((∀ idx ∈ fieldIndexes m, ∀ p ∈ idx, ∀ e ∈ p.2, (wsplit e.1).length ≤ 1) →
      (fieldMatches (extractAllRaw m phrase)).Pairwise
        (fun ms1 ms2 => Disjoint (claimedOf ms1) (claimedOf ms2))) := by
  rw [extractAllRaw_eq_runPasses]
  exact ⟨runPasses_pairwise_starts _ _,
    fun h => runPasses_pairwise_disjoint _ _
      (fun idx hidx => singleTokenIndex_of_entries (h idx hidx))⟩

/-- C3 (amended).  A token at position `i` that is a single-token entry of
the Keyword index (which, like every `_build_index` bucket, holds no empty
entries) is claimed by the Keyword pass, and no Brand match starts at `i`
(the position may still fall inside a longer Brand match that starts at an
earlier unclaimed position; see the counterexample). -/
theorem field_priority_amended (m : Matcher) (phrase : Str) (i rI : ℕ)
    (t : Str)
    (hi : i < (wsplit (cleanPhrase m.stopwords phrase)).length)
    (hw : (wsplit (cleanPhrase m.stopwords phrase)).getD i [] = t)
    (ht : (t, rI) ∈ findBucket m.keyword_index t)
    (hne : ∀ e ∈ findBucket m.keyword_index t, e.1 ≠ []) :
    i ∈ claimedOf (extractAllRaw m phrase).keywords ∧
      ∀ mt ∈ (extractAllRaw m phrase).brands, mt.2.1 ≠ i := by
  have hget : (wsplit (cleanPhrase m.stopwords phrase))[i] = t := by
    rw [← List.getD_eq_getElem _ [] hi, hw]
  have htmem : t ∈ wsplit (cleanPhrase m.stopwords phrase) := by
    rw [← hget]; exact List.getElem_mem hi
  obtain ⟨htne, htch⟩ := mem_wsplit htmem
  have hsingle : wsplit t = [t] :=
    wsplit_eq_single htne (fun c hc => (htch c hc).2)
  have hfits : fits (wsplit (cleanPhrase m.stopwords phrase)) i t = true := by
    unfold fits
    rw [hsingle]
    simp only [List.length_cons, List.length_nil, if_pos rfl]
    rw [hw]
    exact decide_eq_true rfl
  obtain ⟨kw, L, htry⟩ := tryEntries_isSome_of_fit (t, rI) ht hfits
  have hLpos : 0 < L := by
    obtain ⟨⟨r, hr⟩, hLeq, hfkw⟩ := tryEntries_eq_some htry
    rw [hLeq]
    exact fits_token_pos hfkw (hne (kw, r) hr)
  have henum : (i, t) ∈ (wsplit (cleanPhrase m.stopwords phrase)).enum := by
    rw [List.mem_enum_iff_getElem?]
    simp [List.getElem?_eq_getElem hi, hget]
  have hclaim : i ∈ (matchFromIndex (cleanPhrase m.stopwords phrase)
      m.keyword_index ∅).2 :=
    matchGo_claims _ ∅ henum htry hLpos
  have hused : (matchFromIndex (cleanPhrase m.stopwords phrase)
      m.keyword_index ∅).2 =
      claimedOf (matchFromIndex (cleanPhrase m.stopwords phrase)
        m.keyword_index ∅).1 := by
    show (matchGo _ _ _ _).2 = _
    rw [matchGo_used]
    exact Finset.empty_union _
  constructor
  · show i ∈ claimedOf (matchFromIndex (cleanPhrase m.stopwords phrase)
      m.keyword_index ∅).1
    rw [← hused]
    exact hclaim
  · intro mt hmt heq
    have h1 := (matchGo_matches _ _ mt hmt).1
    rw [heq] at h1
    exact h1 hclaim

/-- C1 counterexample: on phrase `xx yy`, the Keyword pass claims position 1
(entry `yy`), and the Brand pass then matches the two-token entry `xx yy` at
start position 0 — which is unclaimed — re-claiming position 1.  Position 1
is claimed by two fields, so the claimed sets are not pairwise disjoint. -/
theorem nonoverlap_counterexample :
    1 ∈ claimedOf (extractAllRaw mOverlap (strL "xx yy")).keywords ∧
    1 ∈ claimedOf (extractAllRaw mOverlap (strL "xx yy")).brands ∧
    ¬ (fieldMatches (extractAllRaw mOverlap (strL "xx yy"))).Pairwise
        (fun ms1 ms2 => Disjoint (claimedOf ms1) (claimedOf ms2)) := by
  refine ⟨by decide, by decide, ?_⟩
  intro h
  rw [show fieldMatches (extractAllRaw mOverlap (strL "xx yy")) =
    (extractAllRaw mOverlap (strL "xx yy")).keywords ::
      [(extractAllRaw mOverlap (strL "xx yy")).brands,
       (extractAllRaw mOverlap (strL "xx yy")).types,
       (extractAllRaw mOverlap (strL "xx yy")).sizes,
       (extractAllRaw mOverlap (strL "xx yy")).ages,
       (extractAllRaw mOverlap (strL "xx yy")).genders] from rfl,
    List.pairwise_cons] at h
  have h1 := h.1 (extractAllRaw mOverlap (strL "xx yy")).brands (by simp)
  have h2 : ¬ Disjoint
      (claimedOf (extractAllRaw mOverlap (strL "xx yy")).keywords)
      (claimedOf (extractAllRaw mOverlap (strL "xx yy")).brands) := by
    rw [Finset.not_disjoint_iff]
    exact ⟨1, by decide, by decide⟩
  exact h2 h1

/-- Witness for the amended C1 at a concrete input: the table `tblSingle`
has only single-token entries, and on phrase `mm nn` the six claimed sets
are pairwise disjoint. -/
theorem nonoverlap_amended_witness :
    (∀ idx ∈ fieldIndexes mSingle, ∀ p ∈ idx, ∀ e ∈ p.2,
      (wsplit e.1).length ≤ 1) ∧
    (fieldMatches (extractAllRaw mSingle (strL "mm nn"))).Pairwise
      (fun ms1 ms2 => Disjoint (claimedOf ms1) (claimedOf ms2)) :=
  ⟨by decide, (nonoverlap_amended mSingle (strL "mm nn")).2 (by decide)⟩

/-- C3 counterexample: on phrase `aa tt`, the token `tt` at position 1 is a
single-token entry of both the Keyword and the Brand index.  The Keyword
pass claims position 1, yet the Brand pass still claims it too, inside its
two-token match `aa tt` starting at the unclaimed position 0 — so the token
is *not* claimed by Keyword only. -/
theorem field_priority_counterexample :
    (strL "tt", 0) ∈ findBucket mPriority.keyword_index (strL "tt") ∧
    (strL "tt", 0) ∈ findBucket mPriority.brand_index (strL "tt") ∧
    (wsplit (cleanPhrase mPriority.stopwords (strL "aa tt"))).getD 1 [] =
      strL "tt" ∧
    1 ∈ claimedOf (extractAllRaw mPriority (strL "aa tt")).keywords ∧
    1 ∈ claimedOf (extractAllRaw mPriority (strL "aa tt")).brands := by
  refine ⟨by decide, by decide, by decide, by decide, by decide⟩

/-- Witness for the amended C3 at a concrete input: on phrase `mm nn` with
table `tblSingle`, the Keyword entry `mm` at position 0 is claimed by the
Keyword pass and no Brand match starts there. -/
theorem field_priority_amended_witness :
    (0 < (wsplit (cleanPhrase mSingle.stopwords (strL "mm nn"))).length ∧
      (wsplit (cleanPhrase mSingle.stopwords (strL "mm nn"))).getD 0 [] =
        strL "mm" ∧
      (strL "mm", 0) ∈ findBucket mSingle.keyword_index (strL "mm") ∧
      ∀ e ∈ findBucket mSingle.keyword_index (strL "mm"), e.1 ≠ []) ∧
    0 ∈ claimedOf (extractAllRaw mSingle (strL "mm nn")).keywords ∧
      ∀ mt ∈ (extractAllRaw mSingle (strL "mm nn")).brands, mt.2.1 ≠ 0 :=
  ⟨⟨by decide, by decide, by decide, by decide⟩,
   field_priority_amended mSingle (strL "mm nn") 0 0 (strL "mm")
     (by decide) (by decide) (by decide) (by decide)⟩

theorem keyGt_cases (a b : ℕ × ℕ) : keyGt a b ∨ keyGt b a ∨ a = b := by
  rcases a with ⟨a1, a2⟩
  rcases b with ⟨b1, b2⟩
  unfold keyGt
  simp only [Prod.mk.injEq]
  omega

theorem keyGt_trans {a b c : ℕ × ℕ} (h1 : keyGt a b) (h2 : keyGt b c) :
    keyGt a c := by
  unfold keyGt at *
  omega

theorem insertDesc_perm (key : α → ℕ × ℕ) (e : α) :
    ∀ l : List α, (insertDesc key e l).Perm (e :: l) := by
  intro l
  induction l with
  | nil => exact List.Perm.refl _
  | cons x xs ih =>
    unfold insertDesc
    by_cases h : keyGt (key x) (key e)
    · rw [if_pos h]
      exact (ih.cons x).trans (List.Perm.swap e x xs)
    · rw [if_neg h]

theorem insertDesc_pairwise {key : α → ℕ × ℕ} {row : α → ℕ} {e : α} :
    ∀ {l : List α}, l.Pairwise (stableDesc key row) →
      (∀ x ∈ l, row e < row x) →
      (insertDesc key e l).Pairwise (stableDesc key row) := by
  intro l
  induction l with
  | nil => intro _ _; simp [insertDesc]
  | cons x xs ih =>
    intro hl hrow
    unfold insertDesc
    by_cases h : keyGt (key x) (key e)
    · rw [if_pos h]
      refine List.Pairwise.cons ?_
        (ih (List.Pairwise.of_cons hl)
          (fun y hy => hrow y (List.mem_cons_of_mem x hy)))
      intro y hy
      rcases List.mem_cons.mp ((insertDesc_perm key e xs).mem_iff.mp hy) with
        rfl | hy'
      · exact Or.inl h
      · exact List.rel_of_pairwise_cons hl hy'
    · rw [if_neg h]
      refine List.Pairwise.cons ?_ hl
      intro y hy
      rcases List.mem_cons.mp hy with rfl | hy'
      · rcases keyGt_cases (key e) (key y) with hgt | hgt | heq
        · exact Or.inl hgt
        · exact absurd hgt h
        · exact Or.inr ⟨heq, hrow y (List.mem_cons_self _ _)⟩
      · have hxy := List.rel_of_pairwise_cons hl hy'
        rcases keyGt_cases (key e) (key x) with hgt | hgt | heq
        · rcases hxy with h1 | ⟨h1, _⟩
          · exact Or.inl (keyGt_trans hgt h1)
          · exact Or.inl (h1 ▸ hgt)
        · exact absurd hgt h
        · rcases hxy with h1 | ⟨h1, _⟩
          · exact Or.inl (heq ▸ h1)
          · exact Or.inr ⟨heq.trans h1, hrow y (List.mem_cons_of_mem x hy')⟩

theorem stableSortDesc_perm (key : α → ℕ × ℕ) :
    ∀ l : List α, (stableSortDesc key l).Perm l := by
  intro l
  induction l with
  | nil => exact List.Perm.refl _
  | cons e es ih =>
    exact (insertDesc_perm key e _).trans (ih.cons e)

theorem stableSortDesc_pairwise {key : α → ℕ × ℕ} {row : α → ℕ} :
    ∀ {l : List α}, l.Pairwise (fun a b => row a < row b) →
      (stableSortDesc key l).Pairwise (stableDesc key row) := by
  intro l
  induction l with
  | nil => intro _; simp [stableSortDesc]
  | cons e es ih =>
    intro hl
    unfold stableSortDesc
    refine insertDesc_pairwise (ih (List.Pairwise.of_cons hl)) ?_
    intro x hx
    exact List.rel_of_pairwise_cons hl
      ((stableSortDesc_perm key es).mem_iff.mp hx)

theorem findBucket_nil (k : Str) : findBucket [] k = [] := rfl

theorem findBucket_cons (k' : Str) (b : List Entry) (rest : Index) (k : Str) :
    findBucket ((k', b) :: rest) k = if k' = k then b else findBucket rest k := by
  unfold findBucket
  by_cases h : k' = k
  · rw [List.find?_cons_of_pos _ (by simpa using h), if_pos h]
  · rw [List.find?_cons_of_neg _ (by simpa using h), if_neg h]

theorem findBucket_appendAt_self (k : Str) (e : Entry) :
    ∀ idx : Index, findBucket (appendAt idx k e) k = findBucket idx k ++ [e] := by
  intro idx
  induction idx with
  | nil =>
    rw [show appendAt [] k e = [(k, [e])] from rfl, findBucket_cons,
      if_pos rfl, findBucket_nil]
    rfl
  | cons p rest ih =>
    obtain ⟨k', b⟩ := p
    unfold appendAt
    by_cases h : k' = k
    · rw [if_pos h, findBucket_cons, findBucket_cons, if_pos h, if_pos h]
    · rw [if_neg h, findBucket_cons, findBucket_cons, if_neg h, if_neg h]
      exact ih

theorem findBucket_appendAt_ne {k k' : Str} (e : Entry) (h : k' ≠ k) :
    ∀ idx : Index, findBucket (appendAt idx k e) k' = findBucket idx k' := by
  intro idx
  induction idx with
  | nil =>
    rw [show appendAt [] k e = [(k, [e])] from rfl, findBucket_cons,
      if_neg (Ne.symm h), findBucket_nil]
  | cons p rest ih =>
    obtain ⟨k'', b⟩ := p
    unfold appendAt
    by_cases h2 : k'' = k
    · rw [if_pos h2, findBucket_cons, findBucket_cons]
      by_cases h3 : k'' = k'
      · exact absurd (h3.symm.trans h2) h
      · rw [if_neg h3, if_neg h3]
    · rw [if_neg h2, findBucket_cons, findBucket_cons]
      by_cases h3 : k'' = k'
      · rw [if_pos h3, if_pos h3]
      · rw [if_neg h3, if_neg h3]
        exact ih

theorem findBucket_sortBuckets (k : Str) :
    ∀ idx : Index,
      findBucket (idx.map (fun p => (p.1, stableSortDesc entryKey p.2))) k =
        stableSortDesc entryKey (findBucket idx k) := by
  intro idx
  induction idx with
  | nil => rfl
  | cons p rest ih =>
    obtain ⟨k', b⟩ := p
    simp only [List.map_cons]
    rw [findBucket_cons, findBucket_cons]
    by_cases h : k' = k
    · rw [if_pos h, if_pos h]
    · rw [if_neg h, if_neg h]
      exact ih

theorem preIndex_rows : ∀ (wl : List Str) (i0 : ℕ) (acc : Index),
    (∀ k, (findBucket acc k).Pairwise (fun a b => a.2 < b.2) ∧
      ∀ e ∈ findBucket acc k, e.2 < i0) →
    ∀ k, (findBucket (preIndex wl i0 acc) k).Pairwise
      (fun a b => a.2 < b.2) := by
  intro wl
  induction wl with
  | nil => intro i0 acc h k; exact (h k).1
  | cons w ws ih =>
    intro i0 acc h k
    unfold preIndex
    by_cases hv : strQ2B (toLowerS (pyStrip w)) = []
    · rw [if_pos hv]
      exact ih (i0 + 1) acc
        (fun k' => ⟨(h k').1, fun e he => Nat.lt_succ_of_lt ((h k').2 e he)⟩) k
    · rw [if_neg hv]
      apply ih (i0 + 1)
      intro k'
      by_cases hk : k' = (match wsplit (strQ2B (toLowerS (pyStrip w))) with
        | [] => strQ2B (toLowerS (pyStrip w))
        | t :: _ => t)
      · rw [hk, findBucket_appendAt_self]
        constructor
        · rw [List.pairwise_append]
          refine ⟨(h _).1, by simp, ?_⟩
          intro a ha b hb
          rw [List.mem_singleton] at hb
          subst hb
          exact (h _).2 a ha
        · intro e he
          rcases List.mem_append.mp he with he' | he'
          · exact Nat.lt_succ_of_lt ((h _).2 e he')
          · rw [List.mem_singleton] at he'
            subst he'
            exact Nat.lt_succ_self i0
      · rw [findBucket_appendAt_ne _ hk]
        exact ⟨(h k').1, fun e he => Nat.lt_succ_of_lt ((h k').2 e he)⟩

/-- The buckets of `_build_index` are sorted in the stable descending order:
descending by `(token count, character length)`, original row order breaking
ties. -/
theorem buildIndex_bucket_sorted (wl : List Str) (k : Str) :
    (findBucket (buildIndex wl) k).Pairwise
      (stableDesc entryKey (fun e => e.2)) := by
  unfold buildIndex
  rw [findBucket_sortBuckets]
  apply stableSortDesc_pairwise
  apply preIndex_rows wl 0 []
  intro k'
  constructor
  · simp [findBucket, List.find?]
  · intro e he
    simp [findBucket, List.find?] at he

theorem tryEntries_first_fit {words : List Str} {i : ℕ} :
    ∀ {b : List Entry} (e : Entry), e ∈ b → fits words i e.1 = true →
      ∃ e' pre post, b = pre ++ e' :: post ∧
        (∀ x ∈ pre, fits words i x.1 = false) ∧
        fits words i e'.1 = true ∧
        ∀ post' : List Entry, tryEntries words i (pre ++ e' :: post') =
          some (e'.1, (wsplit e'.1).length) := by
  intro b
  induction b with
  | nil => intro e he hf; simp at he
  | cons x rest ih =>
    intro e he hf
    by_cases hx : fits words i x.1 = true
    · refine ⟨x, [], rest, rfl, by simp, hx, ?_⟩
      intro post'
      show tryEntries words i (x :: post') = _
      obtain ⟨kw', r'⟩ := x
      unfold tryEntries
      rw [if_pos (by simpa using hx)]
    · rcases List.mem_cons.mp he with rfl | he'
      · exact absurd hf hx
      · obtain ⟨e', pre, post, hb, hpre, hfe, htail⟩ := ih e he' hf
        refine ⟨e', x :: pre, post, by rw [hb]; rfl, ?_, hfe, ?_⟩
        · intro z hz
          rcases List.mem_cons.mp hz with rfl | hz'
          · exact Bool.eq_false_iff.mpr hx
          · exact hpre z hz'
        · intro post'
          show tryEntries words i (x :: (pre ++ e' :: post')) = _
          obtain ⟨kw', r'⟩ := x
          unfold tryEntries
          rw [if_neg (by simpa using hx)]
          exact htail post'

theorem bucket_first_fit_max {words : List Str} {i : ℕ} {b : List Entry}
    (hsorted : b.Pairwise (stableDesc entryKey (fun e => e.2)))
    {e e' : Entry} {pre post : List Entry} (hb : b = pre ++ e' :: post)
    (hpre : ∀ x ∈ pre, fits words i x.1 = false)
    (he : e ∈ b) (hf : fits words i e.1 = true) :
    keyGt (entryKey e') (entryKey e) ∨ entryKey e' = entryKey e := by
  subst hb
  rcases List.mem_append.mp he with hpre' | hpost
  · rw [hpre e hpre'] at hf
    exact absurd hf (by simp)
  · rcases List.mem_cons.mp hpost with rfl | hpost'
    · exact Or.inr rfl
    · have hp := (List.pairwise_append.mp hsorted).2.1
      rcases List.rel_of_pairwise_cons hp hpost' with h | ⟨h, _⟩
      · exact Or.inl h
      · exact Or.inr h

/-- C2 (confirmed).  Longest-match precedence: every bucket of
`_build_index` is sorted descending by `(token count, character length)`
with original row order breaking ties; and whenever some entry of the bucket
fits at start position `i`, the bucket splits as `pre ++ e' :: post` where
nothing in `pre` fits, `e'` fits, `e'`'s sort key is at least that of every
fitting entry (so a fitting multi-token entry is never preceded by a
shorter one), and the candidate scan returns `e'` whatever follows it —
no further candidates are tried after the match. -/
theorem longest_match_precedence (wl : List Str) (k : Str) (words : List Str)
    (i : ℕ) (e : Entry) (he : e ∈ findBucket (buildIndex wl) k)
    (hfit : fits words i e.1 = true) :
    (findBucket (buildIndex wl) k).Pairwise
      (stableDesc entryKey (fun e => e.2)) ∧
    ∃ e' pre post, findBucket (buildIndex wl) k = pre ++ e' :: post ∧
      (∀ x ∈ pre, fits words i x.1 = false) ∧
      fits words i e'.1 = true ∧
      (keyGt (entryKey e') (entryKey e) ∨ entryKey e' = entryKey e) ∧
      ∀ post' : List Entry, tryEntries words i (pre ++ e' :: post') =
        some (e'.1, (wsplit e'.1).length) := by
  refine ⟨buildIndex_bucket_sorted wl k, ?_⟩
  obtain ⟨e', pre, post, hb, hpre, hfe, htail⟩ := tryEntries_first_fit e he hfit
  exact ⟨e', pre, post, hb, hpre, hfe,
    bucket_first_fit_max (buildIndex_bucket_sorted wl k) hb hpre he hfit,
    htail⟩

/-- Witness for C2 at a concrete input: with entries `shoe bag` and `shoe`
(both keyed under `shoe`) and token sequence `shoe bag`, the single-token
entry `shoe` fits at position 0, and the matched entry is the two-token
`shoe bag`. -/
theorem longest_match_precedence_witness :
    ((strL "shoe", 1) ∈
        findBucket (buildIndex [strL "shoe bag", strL "shoe"]) (strL "shoe") ∧
      fits [strL "shoe", strL "bag"] 0 (strL "shoe", 1).1 = true) ∧
    ((findBucket (buildIndex [strL "shoe bag", strL "shoe"])
        (strL "shoe")).Pairwise (stableDesc entryKey (fun e => e.2)) ∧
      ∃ e' pre post,
        findBucket (buildIndex [strL "shoe bag", strL "shoe"]) (strL "shoe") =
          pre ++ e' :: post ∧
        (∀ x ∈ pre, fits [strL "shoe", strL "bag"] 0 x.1 = false) ∧
        fits [strL "shoe", strL "bag"] 0 e'.1 = true ∧
        (keyGt (entryKey e') (entryKey (strL "shoe", 1)) ∨
          entryKey e' = entryKey (strL "shoe", 1)) ∧
        ∀ post' : List Entry,
          tryEntries [strL "shoe", strL "bag"] 0 (pre ++ e' :: post') =
            some (e'.1, (wsplit e'.1).length)) :=
  ⟨⟨by decide, by decide⟩,
   longest_match_precedence [strL "shoe bag", strL "shoe"] (strL "shoe")
     [strL "shoe", strL "bag"] 0 (strL "shoe", 1) (by decide) (by decide)⟩

/-! ## Column-mapping properties (C4, C5) -/
theorem lookupCol_cons (h : Str) (col : List Str) (rest : Table) (h' : Str) :
    lookupCol ((h, col) :: rest) h' =
      if h = h' then col else lookupCol rest h' := by
  unfold lookupCol
  by_cases heq : h = h'
  · rw [List.find?_cons_of_pos _ (by simpa using heq), if_pos heq]
  · rw [List.find?_cons_of_neg _ (by simpa using heq), if_neg heq]

theorem colMap_foldl (ρ : Role) :
    ∀ (headers : List Str) (acc : Option Str),
      headers.foldl (fun acc c =>
        match roleOf c with
        | some ρ' => if ρ' = ρ then some c else acc
        | none => acc) acc =
      ((headers.filter (fun c => roleOf c = some ρ)).getLast?).or acc := by
  intro headers
  induction headers with
  | nil => intro acc; simp
  | cons c cs ih =>
    intro acc
    rw [List.foldl_cons, ih]
    by_cases hc : roleOf c = some ρ
    · rw [List.filter_cons_of_pos (by simpa using hc)]
      have hstep : (match roleOf c with
          | some ρ' => if ρ' = ρ then some c else acc
          | none => acc) = some c := by
        rw [hc]; simp
      rw [hstep]
      cases hcs : cs.filter (fun c => roleOf c = some ρ) with
      | nil => simp
      | cons d ds =>
        obtain ⟨x, hx⟩ := Option.isSome_iff_exists.mp
          (List.getLast?_isSome.mpr (List.cons_ne_nil d ds))
        show ((d :: ds).getLast?).or (some c) = ((d :: ds).getLast?).or acc
        rw [hx]
        rfl
    · rw [List.filter_cons_of_neg (by simpa using hc)]
      have hstep : (match roleOf c with
          | some ρ' => if ρ' = ρ then some c else acc
          | none => acc) = acc := by
        cases hr : roleOf c with
        | none => simp
        | some ρ' =>
          have : ρ' ≠ ρ := fun he => hc (by rw [hr, he])
          simp [this]
      rw [hstep]

/-- C5 (amended).  For each role, `col_map` holds the *last* header (in
column order) whose first matching role in the `if/elif` chain is that role
— each matching header overwrites the previous assignment. -/
theorem colMap_eq_getLast (headers : List Str) (ρ : Role) :
    colMap headers ρ =
      (headers.filter (fun c => roleOf c = some ρ)).getLast? := by
  unfold colMap
  rw [colMap_foldl, Option.or_none]

/-- C5 counterexample: with two headers containing `keyword`, the claim maps
the role to the first (`keyword1`), but the code keeps the last assignment:
`keyword2`.  Consequently the Keyword value list comes from the second
column. -/
theorem colMap_counterexample :
    (hdrsDup.filter (fun c => roleOf c = some .Keyword)).head? =
      some (strL "keyword1") ∧
    colMap hdrsDup .Keyword = some (strL "keyword2") ∧
    strL "keyword2" ≠ strL "keyword1" ∧
    fieldList tblDup .Keyword = [strL "v2"] := by
  exact ⟨by decide, by decide, by decide, by decide⟩

/-- C4 counterexample: with no header matching any role, the Keyword list
falls back to the first column, but the Type list — contrary to the claim —
is empty rather than the first column. -/
theorem fallback_counterexample :
    colMap ((normTable tblNoRoles).map (fun p => p.1)) .Keyword = none ∧
    colMap ((normTable tblNoRoles).map (fun p => p.1)) .Type = none ∧
    fieldList tblNoRoles .Keyword = [strL "v1", strL "v2"] ∧
    fieldList tblNoRoles .Type = [] ∧
    fieldList tblNoRoles .Type ≠ [strL "v1", strL "v2"] := by
  exact ⟨by decide, by decide, by decide, by decide, by decide⟩

/-- C4 (amended).  If the header scan leaves Keyword unmatched, the Keyword
value list falls back to the first column of the table; every *other*
unmapped role yields the empty list (`… if 'Type' in col_map else []`), not
the first column. -/
theorem fallback_amended (t : Table) (h0 : Str) (c0 : List Str)
    (rest : Table) (ht : normTable t = (h0, c0) :: rest)
    (hK : colMap ((normTable t).map (fun p => p.1)) .Keyword = none)
    (ρ : Role) (hρ : ρ ≠ .Keyword)
    (hρn : colMap ((normTable t).map (fun p => p.1)) ρ = none) :
    fieldList t .Keyword = c0 ∧ fieldList t ρ = [] := by
  constructor
  · show (match colMap ((normTable t).map (fun p => p.1)) .Keyword with
      | some h => lookupCol (normTable t) h
      | none =>
        if Role.Keyword = .Keyword then
          match normTable t with
          | [] => []
          | (h0, _) :: _ => lookupCol (normTable t) h0
        else []) = c0
    rw [hK, ht]
    show lookupCol ((h0, c0) :: rest) h0 = c0
    rw [lookupCol_cons, if_pos rfl]
  · show (match colMap ((normTable t).map (fun p => p.1)) ρ with
      | some h => lookupCol (normTable t) h
      | none =>
        if ρ = .Keyword then
          match normTable t with
          | [] => []
          | (h0, _) :: _ => lookupCol (normTable t) h0
        else []) = []
    rw [hρn, if_neg hρ]

/-- Witness for the amended C4 at a concrete input: table `tblNoRoles` has
no matching header; `Keyword` gets the first column, `Type` gets `[]`. -/
theorem fallback_amended_witness :
    (normTable tblNoRoles =
      (strL "colA", [strL "v1", strL "v2"]) :: [] ∧
      colMap ((normTable tblNoRoles).map (fun p => p.1)) .Keyword = none ∧
      (Role.Type ≠ .Keyword) ∧
      colMap ((normTable tblNoRoles).map (fun p => p.1)) .Type = none) ∧
    fieldList tblNoRoles .Keyword = [strL "v1", strL "v2"] ∧
      fieldList tblNoRoles .Type = [] :=
  ⟨⟨by decide, by decide, by decide, by decide⟩,
   fallback_amended tblNoRoles (strL "colA") [strL "v1", strL "v2"] []
     (by decide) (by decide) .Type (by decide) (by decide)⟩

/-! ## Degradation on empty phrases (C8) -/
/-- C8 (confirmed).  A phrase whose cleaned text is empty (the empty phrase,
or one of only stop words, punctuation and single characters) yields the
all-empty extraction result — six empty matched sequences and an empty
uncovered list — and the batch loop still produces exactly one result row
per (truncated) input phrase, in order. -/
theorem empty_phrase_degrades (m : Matcher) (phrase : Str)
    (h : cleanPhrase m.stopwords phrase = []) :
    extractAll m phrase = ⟨[], [], [], [], [], [], []⟩ ∧
      mkRow m phrase = ⟨[], [], [], [], [], [], []⟩ ∧
      ∀ phrases : List Str, (processPhrases m phrases).1 =
        (effectivePhrases m phrases).map (mkRow m) := by
  have he : extractAll m phrase = ⟨[], [], [], [], [], [], []⟩ := by
    unfold extractAll
    rw [h]
    rfl
  refine ⟨he, ?_, fun phrases => rfl⟩
  unfold mkRow
  rw [he]
  rfl

/-- Witness for C8: the empty phrase, with a concrete matcher. -/
theorem empty_phrase_degrades_witness :
    cleanPhrase mSingle.stopwords (strL "") = [] ∧
      extractAll mSingle (strL "") = ⟨[], [], [], [], [], [], []⟩ :=
  ⟨by decide, (empty_phrase_degrades mSingle (strL "") (by decide)).1⟩

/-! ## Rank-limit leniency (C10) -/
/-- C10 (confirmed).  The rank-limit option is consumed as a string; rows
are truncated only when it is a non-empty all-digit string denoting a
positive integer, in which case exactly `min limit n` rows are processed.
For every other value (absent/empty, negative, non-numeric, decimal, `"0"`)
all rows are processed in order, and — the model being total — no error is
raised. -/
theorem rank_limit_leniency (o : Options) (t : Table) (phrases : List Str) :
    (¬(pyIsdigit o.rank_limit = true ∧ 0 < strToNat o.rank_limit) →
      (processPhrases (mkMatcher t o) phrases).1 =
        phrases.map (mkRow (mkMatcher t o)) ∧
      (processPhrases (mkMatcher t o) phrases).1.length = phrases.length) ∧
    ((pyIsdigit o.rank_limit = true ∧ 0 < strToNat o.rank_limit) →
      (processPhrases (mkMatcher t o) phrases).1.length =
        min (strToNat o.rank_limit) phrases.length) := by
  have hrl : (mkMatcher t o).rank_limit = parseRankLimit o := rfl
  constructor
  · intro hnot
    have heff : effectivePhrases (mkMatcher t o) phrases = phrases := by
      unfold effectivePhrases
      rw [hrl]
      unfold parseRankLimit
      by_cases hd : pyIsdigit o.rank_limit = true
      · rw [if_pos hd]
        have : ¬ 0 < strToNat o.rank_limit := fun hp => hnot ⟨hd, hp⟩
        simp only [if_neg this]
      · rw [if_neg hd]
    constructor
    · show (effectivePhrases (mkMatcher t o) phrases).map _ = _
      rw [heff]
    · show ((effectivePhrases (mkMatcher t o) phrases).map _).length = _
      rw [heff, List.length_map]
  · intro ⟨hd, hp⟩
    have heff : effectivePhrases (mkMatcher t o) phrases =
        phrases.take (strToNat o.rank_limit) := by
      unfold effectivePhrases
      rw [hrl]
      unfold parseRankLimit
      rw [if_pos hd]
      simp only [if_pos hp]
    show ((effectivePhrases (mkMatcher t o) phrases).map _).length = _
    rw [heff, List.length_map, List.length_take]

/-- Witness for C10: with `rank_limit = "-3"` (not all digits) all five rows
are processed; with `rank_limit = "2"` exactly two are. -/
theorem rank_limit_leniency_witness :
    (¬(pyIsdigit (strL "-3") = true ∧ 0 < strToNat (strL "-3")) ∧
      (processPhrases (mkMatcher tblSingle ⟨strL "-3", strL ""⟩) ps5).1.length
        = 5) ∧
    ((pyIsdigit (strL "2") = true ∧ 0 < strToNat (strL "2")) ∧
      (processPhrases (mkMatcher tblSingle ⟨strL "2", strL ""⟩) ps5).1.length
        = 2) := by
  constructor
  · refine ⟨by decide, ?_⟩
    rw [((rank_limit_leniency ⟨strL "-3", strL ""⟩ tblSingle ps5).1
      (by decide)).2]
    rfl
  · refine ⟨by decide, ?_⟩
    rw [(rank_limit_leniency ⟨strL "2", strL ""⟩ tblSingle ps5).2 (by decide)]
    rfl

/-! ## Coverage statistics (C9) -/
theorem preIndex_entries_ne_nil : ∀ (wl : List Str) (i0 : ℕ) (acc : Index),
    (∀ k, ∀ e ∈ findBucket acc k, e.1 ≠ []) →
    ∀ k, ∀ e ∈ findBucket (preIndex wl i0 acc) k, e.1 ≠ [] := by
  intro wl
  induction wl with
  | nil => intro i0 acc h k; exact h k
  | cons w ws ih =>
    intro i0 acc h k
    unfold preIndex
    by_cases hv : strQ2B (toLowerS (pyStrip w)) = []
    · rw [if_pos hv]
      exact ih (i0 + 1) acc h k
    · rw [if_neg hv]
      apply ih (i0 + 1)
      intro k' e he
      by_cases hk : k' = (match wsplit (strQ2B (toLowerS (pyStrip w))) with
        | [] => strQ2B (toLowerS (pyStrip w))
        | t :: _ => t)
      · rw [hk, findBucket_appendAt_self] at he
        rcases List.mem_append.mp he with he' | he'
        · exact h _ e he'
        · rw [List.mem_singleton] at he'
          subst he'
          exact hv
      · rw [findBucket_appendAt_ne _ hk] at he
        exact h k' e he

theorem buildIndex_entry_ne_nil {wl : List Str} {k : Str} {e : Entry}
    (he : e ∈ findBucket (buildIndex wl) k) : e.1 ≠ [] := by
  unfold buildIndex at he
  rw [findBucket_sortBuckets] at he
  refine preIndex_entries_ne_nil wl 0 [] ?_ k e
    ((stableSortDesc_perm entryKey _).mem_iff.mp he)
  intro k' e' h'
  simp [findBucket, List.find?] at h'

theorem matchFromIndex_kw_ne_nil {c : Str} {idx : Index}
    (hidx : ∀ k, ∀ e ∈ findBucket idx k, e.1 ≠ []) {u : Finset ℕ} :
    ∀ s ∈ (matchFromIndex c idx u).1, s.1 ≠ [] := by
  intro s hs
  obtain ⟨-, word, -, htry⟩ := matchGo_matches _ _ s hs
  obtain ⟨⟨r, hr⟩, -, -⟩ := tryEntries_eq_some htry
  exact hidx word (s.1, r) hr

theorem joinComma_eq_nil_iff {ws : List Str} (h : ∀ w ∈ ws, w ≠ []) :
    joinComma ws = [] ↔ ws = [] := by
  cases ws with
  | nil => simp [joinComma]
  | cons w ws' =>
    cases ws' with
    | nil =>
      show w = [] ↔ [w] = []
      constructor
      · intro hw; exact absurd hw (h w (by simp))
      · intro hw; exact absurd hw (by simp)
    | cons w' t =>
      show w ++ ',' :: ' ' :: joinComma (w' :: t) = [] ↔ _
      constructor
      · intro hw
        exact absurd hw (by simp)
      · intro hw
        exact absurd hw (by simp)

theorem extractAll_field_ne_nil {t : Table} {o : Options} {p : Str} :
    (∀ s ∈ (extractAll (mkMatcher t o) p).keywords, s ≠ []) ∧
    (∀ s ∈ (extractAll (mkMatcher t o) p).brands, s ≠ []) ∧
    (∀ s ∈ (extractAll (mkMatcher t o) p).types, s ≠ []) := by
  by_cases hc : cleanPhrase (mkMatcher t o).stopwords p = []
  · unfold extractAll
    rw [if_pos hc]
    exact ⟨by simp, by simp, by simp⟩
  · unfold extractAll
    rw [if_neg hc]
    refine ⟨?_, ?_, ?_⟩ <;>
      · intro s hs
        simp only [List.mem_map] at hs
        obtain ⟨mt, hmt, rfl⟩ := hs
        exact matchFromIndex_kw_ne_nil
          (fun k e he => buildIndex_entry_ne_nil he) mt hmt

/-- C9 (confirmed).  With `n > 0` processed rows, the batch statistics
report, for each of Keyword/Brand/Type, `round(count / n * 100, 2)` where
`count` is the number of processed rows whose matched-field sequence is
non-empty (the joined field string is non-empty exactly when the sequence
is), plus the total row count. -/
theorem coverage_stats (t : Table) (o : Options) (phrases : List Str)
    (h : effectivePhrases (mkMatcher t o) phrases ≠ []) :
    (genStats (processPhrases (mkMatcher t o) phrases).1).total_phrases =
      (effectivePhrases (mkMatcher t o) phrases).length ∧
    (genStats (processPhrases (mkMatcher t o) phrases).1).keyword_coverage =
      round2 ((((effectivePhrases (mkMatcher t o) phrases).countP
          (fun p => (extractAll (mkMatcher t o) p).keywords ≠ [])) : ℚ) /
        (((effectivePhrases (mkMatcher t o) phrases).length : ℚ)) * 100) ∧
    (genStats (processPhrases (mkMatcher t o) phrases).1).brand_coverage =
      round2 ((((effectivePhrases (mkMatcher t o) phrases).countP
          (fun p => (extractAll (mkMatcher t o) p).brands ≠ [])) : ℚ) /
        (((effectivePhrases (mkMatcher t o) phrases).length : ℚ)) * 100) ∧
    (genStats (processPhrases (mkMatcher t o) phrases).1).type_coverage =
      round2 ((((effectivePhrases (mkMatcher t o) phrases).countP
          (fun p => (extractAll (mkMatcher t o) p).types ≠ [])) : ℚ) /
        (((effectivePhrases (mkMatcher t o) phrases).length : ℚ)) * 100) := by
  have hlen : (processPhrases (mkMatcher t o) phrases).1.length =
      (effectivePhrases (mkMatcher t o) phrases).length := by
    show ((effectivePhrases (mkMatcher t o) phrases).map _).length = _
    rw [List.length_map]
  have hpos : 0 < (processPhrases (mkMatcher t o) phrases).1.length := by
    rw [hlen]
    exact List.length_pos.mpr h
  refine ⟨hlen, ?_, ?_, ?_⟩
  · show (if 0 < (processPhrases (mkMatcher t o) phrases).1.length then
        round2 ((((processPhrases (mkMatcher t o) phrases).1.countP
          (fun r => r.kw ≠ [])) : ℚ) /
          (((processPhrases (mkMatcher t o) phrases).1.length : ℚ)) * 100)
      else round2 0) = _
    rw [if_pos hpos, hlen]
    have hcnt : (processPhrases (mkMatcher t o) phrases).1.countP
        (fun r => r.kw ≠ []) =
        (effectivePhrases (mkMatcher t o) phrases).countP
          (fun p => (extractAll (mkMatcher t o) p).keywords ≠ []) := by
      show ((effectivePhrases (mkMatcher t o) phrases).map
        (mkRow (mkMatcher t o))).countP (fun r => r.kw ≠ []) = _
      rw [List.countP_map]
      apply List.countP_congr
      intro p hp
      show decide ((mkRow (mkMatcher t o) p).kw ≠ []) = true ↔ _
      simp only [decide_eq_true_eq]
      show ¬ joinComma (extractAll (mkMatcher t o) p).keywords = [] ↔ _
      rw [joinComma_eq_nil_iff (extractAll_field_ne_nil.1)]
    rw [hcnt]
  · show (if 0 < (processPhrases (mkMatcher t o) phrases).1.length then
        round2 ((((processPhrases (mkMatcher t o) phrases).1.countP
          (fun r => r.br ≠ [])) : ℚ) /
          (((processPhrases (mkMatcher t o) phrases).1.length : ℚ)) * 100)
      else round2 0) = _
    rw [if_pos hpos, hlen]
    have hcnt : (processPhrases (mkMatcher t o) phrases).1.countP
        (fun r => r.br ≠ []) =
        (effectivePhrases (mkMatcher t o) phrases).countP
          (fun p => (extractAll (mkMatcher t o) p).brands ≠ []) := by
      show ((effectivePhrases (mkMatcher t o) phrases).map
        (mkRow (mkMatcher t o))).countP (fun r => r.br ≠ []) = _
      rw [List.countP_map]
      apply List.countP_congr
      intro p hp
      show decide ((mkRow (mkMatcher t o) p).br ≠ []) = true ↔ _
      simp only [decide_eq_true_eq]
      show ¬ joinComma (extractAll (mkMatcher t o) p).brands = [] ↔ _
      rw [joinComma_eq_nil_iff (extractAll_field_ne_nil.2.1)]
    rw [hcnt]
  · show (if 0 < (processPhrases (mkMatcher t o) phrases).1.length then
        round2 ((((processPhrases (mkMatcher t o) phrases).1.countP
          (fun r => r.ty ≠ [])) : ℚ) /
          (((processPhrases (mkMatcher t o) phrases).1.length : ℚ)) * 100)
      else round2 0) = _
    rw [if_pos hpos, hlen]
    have hcnt : (processPhrases (mkMatcher t o) phrases).1.countP
        (fun r => r.ty ≠ []) =
        (effectivePhrases (mkMatcher t o) phrases).countP
          (fun p => (extractAll (mkMatcher t o) p).types ≠ []) := by
      show ((effectivePhrases (mkMatcher t o) phrases).map
        (mkRow (mkMatcher t o))).countP (fun r => r.ty ≠ []) = _
      rw [List.countP_map]
      apply List.countP_congr
      intro p hp
      show decide ((mkRow (mkMatcher t o) p).ty ≠ []) = true ↔ _
      simp only [decide_eq_true_eq]
      show ¬ joinComma (extractAll (mkMatcher t o) p).types = [] ↔ _
      rw [joinComma_eq_nil_iff (extractAll_field_ne_nil.2.2)]
    rw [hcnt]

/-- Witness for C9: 4 processed phrases of which exactly 3 have a non-empty
Keyword match give `keyword_coverage = 75.0`. -/
theorem coverage_stats_witness :
    effectivePhrases (mkMatcher tblOverlap ⟨[], []⟩) ps4 ≠ [] ∧
    (effectivePhrases (mkMatcher tblOverlap ⟨[], []⟩) ps4).countP
      (fun p =>
        (extractAll (mkMatcher tblOverlap ⟨[], []⟩) p).keywords ≠ []) = 3 ∧
    (genStats (processPhrases (mkMatcher tblOverlap ⟨[], []⟩)
      ps4).1).keyword_coverage = 75 := by
  refine ⟨by decide, by decide, ?_⟩
  rw [(coverage_stats tblOverlap ⟨[], []⟩ ps4 (by decide)).2.1]
  with_unfolding_all decide

/-! ## Properties of the binary float model (C6) -/
theorem rhe_ge_floor (q : ℚ) : ⌊q⌋ ≤ rhe q := by
  unfold rhe
  split_ifs <;> omega

theorem rhe_le_floor_add_one (q : ℚ) : rhe q ≤ ⌊q⌋ + 1 := by
  unfold rhe
  split_ifs <;> omega

theorem rhe_intCast (n : ℤ) : rhe (n : ℚ) = n := by
  unfold rhe
  rw [Int.floor_intCast]
  rw [if_pos (by norm_num)]

theorem rhe_mono {q r : ℚ} (h : q ≤ r) : rhe q ≤ rhe r := by
  by_cases hfl : ⌊q⌋ < ⌊r⌋
  · calc rhe q ≤ ⌊q⌋ + 1 := rhe_le_floor_add_one q
      _ ≤ ⌊r⌋ := by omega
      _ ≤ rhe r := rhe_ge_floor r
  · have hf : ⌊q⌋ = ⌊r⌋ := le_antisymm (Int.floor_mono h) (not_lt.mp hfl)
    by_cases h1 : q - ⌊q⌋ < 1 / 2
    · calc rhe q = ⌊q⌋ := by unfold rhe; rw [if_pos h1]
        _ = ⌊r⌋ := hf
        _ ≤ rhe r := rhe_ge_floor r
    · by_cases h2 : 1 / 2 < q - ⌊q⌋
      · have h2r : 1 / 2 < r - ⌊r⌋ := by
          rw [← hf]
          have : q - ⌊q⌋ ≤ r - ⌊q⌋ := by linarith
          linarith
        have hq1 : rhe q = ⌊q⌋ + 1 := by
          unfold rhe; rw [if_neg h1, if_pos h2]
        have hr1 : rhe r = ⌊r⌋ + 1 := by
          unfold rhe
          rw [if_neg (by rw [not_lt]; linarith), if_pos h2r]
        rw [hq1, hr1, hf]
      · have heq : q - ⌊q⌋ = 1 / 2 := le_antisymm (not_lt.mp h2) (not_lt.mp h1)
        by_cases h3 : 1 / 2 < r - ⌊r⌋
        · have hr1 : rhe r = ⌊r⌋ + 1 := by
            unfold rhe
            rw [if_neg (by rw [not_lt]; linarith), if_pos h3]
          calc rhe q ≤ ⌊q⌋ + 1 := rhe_le_floor_add_one q
            _ = rhe r := by rw [hf, ← hr1]
        · have heqr : r - ⌊r⌋ = 1 / 2 := by
            apply le_antisymm (not_lt.mp h3)
            rw [← hf]
            have : q - ⌊q⌋ ≤ r - ⌊q⌋ := by linarith
            linarith [heq]
          have : q = r := by
            have h4 : q = ⌊q⌋ + 1 / 2 := by linarith [heq]
            have h5 : r = ⌊r⌋ + 1 / 2 := by linarith [heqr]
            rw [h4, h5, hf]
          rw [this]

theorem roundFl_ge {q : ℚ} (hq : 0 < q) :
    (2:ℚ) ^ (Int.log 2 q) ≤ roundFl q := by
  have hs : (0:ℚ) < 2 ^ ((52:ℤ) - Int.log 2 q) := zpow_pos (by norm_num) _
  have h1 : (2:ℚ) ^ (52:ℤ) ≤ q * 2 ^ ((52:ℤ) - Int.log 2 q) := by
    calc (2:ℚ) ^ (52:ℤ) =
        2 ^ (Int.log 2 q) * 2 ^ ((52:ℤ) - Int.log 2 q) := by
          rw [← zpow_add₀ (by norm_num : (2:ℚ) ≠ 0)]
          congr 1
          omega
      _ ≤ q * 2 ^ ((52:ℤ) - Int.log 2 q) :=
          mul_le_mul_of_nonneg_right (Int.zpow_log_le_self (by norm_num) hq)
            (le_of_lt hs)
  have h2 : ((2:ℤ) ^ (52:ℕ)) ≤ rhe (q * 2 ^ ((52:ℤ) - Int.log 2 q)) := by
    refine le_trans ?_ (rhe_ge_floor _)
    apply Int.le_floor.mpr
    exact_mod_cast h1
  unfold roundFl
  rw [le_div_iff₀ hs]
  calc (2:ℚ) ^ (Int.log 2 q) * 2 ^ ((52:ℤ) - Int.log 2 q) =
      2 ^ (52:ℤ) := by
        rw [← zpow_add₀ (by norm_num : (2:ℚ) ≠ 0)]
        congr 1
        omega
    _ ≤ (rhe (q * 2 ^ ((52:ℤ) - Int.log 2 q)) : ℚ) := by
        exact_mod_cast h2

theorem roundFl_le {q : ℚ} (hq : 0 < q) :
    roundFl q ≤ (2:ℚ) ^ (Int.log 2 q + 1) := by
  have hs : (0:ℚ) < 2 ^ ((52:ℤ) - Int.log 2 q) := zpow_pos (by norm_num) _
  have h1 : q * 2 ^ ((52:ℤ) - Int.log 2 q) < (2:ℚ) ^ (53:ℤ) := by
    calc q * 2 ^ ((52:ℤ) - Int.log 2 q) <
        2 ^ (Int.log 2 q + 1) * 2 ^ ((52:ℤ) - Int.log 2 q) :=
          mul_lt_mul_of_pos_right (Int.lt_zpow_succ_log_self (by norm_num) q) hs
      _ = 2 ^ (53:ℤ) := by
          rw [← zpow_add₀ (by norm_num : (2:ℚ) ≠ 0)]
          congr 1
          omega
  have h2 : rhe (q * 2 ^ ((52:ℤ) - Int.log 2 q)) ≤ (2:ℤ) ^ (53:ℕ) := by
    refine le_trans (rhe_le_floor_add_one _) ?_
    have : ⌊q * 2 ^ ((52:ℤ) - Int.log 2 q)⌋ < (2:ℤ) ^ (53:ℕ) := by
      apply Int.floor_lt.mpr
      exact_mod_cast h1
    omega
  unfold roundFl
  rw [div_le_iff₀ hs]
  calc (rhe (q * 2 ^ ((52:ℤ) - Int.log 2 q)) : ℚ) ≤ 2 ^ (53:ℤ) := by
        exact_mod_cast h2
    _ = 2 ^ (Int.log 2 q + 1) * 2 ^ ((52:ℤ) - Int.log 2 q) := by
        rw [← zpow_add₀ (by norm_num : (2:ℚ) ≠ 0)]
        congr 1
        omega

theorem roundFl_pos {q : ℚ} (hq : 0 < q) : 0 < roundFl q :=
  lt_of_lt_of_le (zpow_pos (by norm_num) _) (roundFl_ge hq)

theorem roundFl_mono {x y : ℚ} (hx : 0 < x) (hxy : x ≤ y) :
    roundFl x ≤ roundFl y := by
  have hy : 0 < y := lt_of_lt_of_le hx hxy
  have hlog : Int.log 2 x ≤ Int.log 2 y := Int.log_mono_right hx hxy
  rcases lt_or_eq_of_le hlog with hlt | heq
  · calc roundFl x ≤ (2:ℚ) ^ (Int.log 2 x + 1) := roundFl_le hx
      _ ≤ (2:ℚ) ^ (Int.log 2 y) := zpow_le_zpow_right₀ (by norm_num) (by omega)
      _ ≤ roundFl y := roundFl_ge hy
  · unfold roundFl
    rw [← heq]
    have hs : (0:ℚ) < 2 ^ ((52:ℤ) - Int.log 2 x) := zpow_pos (by norm_num) _
    refine (div_le_div_iff_of_pos_right hs).mpr ?_
    exact Int.cast_le.mpr
      (rhe_mono (mul_le_mul_of_nonneg_right hxy (le_of_lt hs)))

theorem roundFl_one : roundFl 1 = 1 := by with_unfolding_all decide

theorem roundFl_hundred : roundFl 100 = 100 := by with_unfolding_all decide

theorem pyProgress_total {n : ℕ} (hn : 0 < n) : pyProgress n n = 100 := by
  unfold pyProgress fdiv fmul
  rw [div_self (Nat.cast_ne_zero.mpr hn.ne' : ((n:ℚ)) ≠ 0), roundFl_one,
    one_mul, roundFl_hundred]
  norm_num

theorem pyProgress_mono {n : ℕ} (hn : 0 < n) {i j : ℕ} (hi : 0 < i)
    (hij : i ≤ j) : pyProgress n i ≤ pyProgress n j := by
  unfold pyProgress fdiv fmul
  have hdiv0 : (0:ℚ) < (i:ℚ) / (n:ℚ) :=
    div_pos (by exact_mod_cast hi) (by exact_mod_cast hn)
  have h1 : roundFl ((i:ℚ) / (n:ℚ)) ≤ roundFl ((j:ℚ) / (n:ℚ)) :=
    roundFl_mono hdiv0
      (div_le_div_of_nonneg_right ?hle ?hpos)
  case hle => exact_mod_cast hij
  case hpos => exact_mod_cast hn.le
  apply Int.floor_mono
  exact roundFl_mono (mul_pos (roundFl_pos hdiv0) (by norm_num))
    (mul_le_mul_of_nonneg_right h1 (by norm_num))

/-- C6 (amended).  For a non-empty (truncated) batch the progress callback
is invoked exactly once after each phrase; the reported values are the
binary64 evaluations of `int((completed/total)*100)` — which can be one
below `floor((completed/total)*100)`, see the counterexample — and the
sequence is monotonically non-decreasing with final value exactly 100. -/
theorem progress_reports (m : Matcher) (phrases : List Str)
    (h : effectivePhrases m phrases ≠ []) :
    (processPhrases m phrases).2.length =
      (effectivePhrases m phrases).length ∧
    (processPhrases m phrases).2 =
      (List.range (effectivePhrases m phrases).length).map
        (fun idx => pyProgress (effectivePhrases m phrases).length (idx + 1)) ∧
    (processPhrases m phrases).2.Sorted (· ≤ ·) ∧
    (processPhrases m phrases).2.getLast? = some 100 := by
  have hn : 0 < (effectivePhrases m phrases).length := List.length_pos.mpr h
  refine ⟨by simp [processPhrases], rfl, ?_, ?_⟩
  · show ((List.range (effectivePhrases m phrases).length).map
      (fun idx => pyProgress (effectivePhrases m phrases).length
        (idx + 1))).Sorted (· ≤ ·)
    rw [List.Sorted, List.pairwise_map]
    refine List.Pairwise.imp ?_ (List.pairwise_lt_range _)
    intro i j hij
    exact pyProgress_mono hn (by omega) (by omega)
  · show ((List.range (effectivePhrases m phrases).length).map
      (fun idx => pyProgress (effectivePhrases m phrases).length
        (idx + 1))).getLast? = some 100
    rw [List.getLast?_eq_getElem?]
    simp only [List.length_map, List.length_range]
    rw [List.getElem?_map, List.getElem?_range (by omega)]
    simp only [Option.map_some']
    rw [show (effectivePhrases m phrases).length - 1 + 1 =
      (effectivePhrases m phrases).length from by omega]
    rw [pyProgress_total hn]

/-- C6 counterexample: in a 100-row batch the 57th reported value is
`int(57/100*100)` computed in binary64 — which is 56, not
`floor((57/100)*100) = 57` (the float product `57/100*100` falls just below
57 and `int` truncates it down). -/
theorem progress_counterexample :
    (processPhrases mSingle ps100).2.length = 100 ∧
    (processPhrases mSingle ps100).2.getD 56 0 = 56 ∧
    ⌊(57 : ℚ) / 100 * 100⌋ = 57 ∧ (56 : ℤ) ≠ 57 := by
  refine ⟨?_, ?_, by norm_num, by decide⟩
  · with_unfolding_all decide
  · with_unfolding_all decide

/-- Witness for the amended C6: a 10-row batch reports exactly 10 values,
non-decreasing, ending at 100. -/
theorem progress_reports_witness :
    effectivePhrases mSingle ps10 ≠ [] ∧
    (processPhrases mSingle ps10).2.length = 10 ∧
    (processPhrases mSingle ps10).2.Sorted (· ≤ ·) ∧
    (processPhrases mSingle ps10).2.getLast? = some 100 := by
  have h := progress_reports mSingle ps10 (by decide)
  refine ⟨by decide, ?_, h.2.2.1, h.2.2.2⟩
  rw [h.1]
  decide
